import Mathlib

/-!
Verification of the structural tree-diff/merge engine of the
i18n-structure-generator repository: `createEmptyStructure`, `syncStructure`
and `setValueAtPath` (utils.js / the collector-bearing variant of
syncStructure), and the placeholder / batch-translation helpers
(translator.js).

Trees are modelled as `JNode`: JSON values plus `undef`, the JS `undefined`
value (JSON documents never contain it, but `setValueAtPath` can create
array holes that read back as `undefined`).  Objects are insertion-ordered
association lists, matching JS object key iteration order.  JS numbers are
modelled as integers: the engine never computes with numbers, it only
copies and compares them.

The in-place `addedNodesCollector` push is modelled by returning, from each
call, the list of records that call appended, in push order; callers
concatenate.  The `console.warn` structural-mismatch message is modelled as
a returned list of the paths warned about.
-/

namespace I18nSync

inductive JNode where
  | null : JNode
  | undef : JNode
  | bool (b : Bool) : JNode
  | num (n : Int) : JNode
  | str (s : String) : JNode
  | arr (elems : List JNode) : JNode
  | obj (entries : List (String × JNode)) : JNode

mutual
def beqJ : JNode → JNode → Bool
  | .null, .null => true
  | .undef, .undef => true
  | .bool a, .bool b => a == b
  | .num a, .num b => a == b
  | .str a, .str b => a == b
  | .arr a, .arr b => beqElems a b
  | .obj a, .obj b => beqFields a b
  | _, _ => false

def beqElems : List JNode → List JNode → Bool
  | [], [] => true
  | x :: xs, y :: ys => beqJ x y && beqElems xs ys
  | _, _ => false

def beqFields : List (String × JNode) → List (String × JNode) → Bool
  | [], [] => true
  | (k, v) :: xs, (k', v') :: ys => k == k' && beqJ v v' && beqFields xs ys
  | _, _ => false
end

instance : DecidableEq JNode := fun a b =>
  decidable_of_iff (beqJ a b = true) (by
    have H := beqJ.mutual_induct
      (motive_1 := fun a b => beqJ a b = true ↔ a = b)
      (motive_2 := fun a b => beqFields a b = true ↔ a = b)
      (motive_3 := fun a b => beqElems a b = true ↔ a = b)
    refine (H ?_ ?_ ?_ ?_ ?_ ?_ ?_ ?_ ?_ ?_ ?_ ?_ ?_ ?_).1 a b
    · simp [beqJ]
    · simp [beqJ]
    · intro a b; simp [beqJ]
    · intro a b; simp [beqJ]
    · intro a b; simp [beqJ]
    · intro a b h; simp [beqJ, h]
    · intro a b h; simp [beqJ, h]
    · intro t x h1 h2 h3 h4 h5 h6 h7
      cases t <;> cases x <;>
        first
          | exact (h1 rfl rfl).elim
          | exact (h2 rfl rfl).elim
          | exact (h3 _ _ rfl rfl).elim
          | exact (h4 _ _ rfl rfl).elim
          | exact (h5 _ _ rfl rfl).elim
          | exact (h6 _ _ rfl rfl).elim
          | exact (h7 _ _ rfl rfl).elim
          | simp [beqJ]
    · simp [beqElems]
    · intro x xs y ys h1 h2; simp [beqElems, h1, h2]
    · intro t x h1 h2
      cases t <;> cases x <;>
        first
          | exact (h1 rfl rfl).elim
          | exact (h2 _ _ _ _ rfl rfl).elim
          | simp [beqElems]
    · simp [beqFields]
    · intro k v xs k' v' ys h1 h2; simp [beqFields, h1, h2, and_assoc]
    · intro t x h1 h2
      cases t <;> cases x <;>
        first
          | exact (h1 rfl rfl).elim
          | (rename_i a as b bs; exact (h2 a.1 a.2 as b.1 b.2 bs rfl rfl).elim)
          | simp [beqFields])

/-- The six-plus-one runtime type tags the engine distinguishes:
`Array.isArray`, the explicit `=== null` test, and `typeof`. -/
inductive JType where
  | object | array | string | number | boolean | nullType | undefType
deriving DecidableEq

/-- `Array.isArray(v) ? 'array' : (v === null ? 'null' : typeof v)`. -/
def jtype : JNode → JType
  | .arr _ => .array
  | .null => .nullType
  | .obj _ => .object
  | .str _ => .string
  | .num _ => .number
  | .bool _ => .boolean
  | .undef => .undefType

def isContainerType : JType → Bool
  | .object => true
  | .array => true
  | _ => false

/-- The four scalar JSON types: object, array and the JS-only `undefined`
excluded. -/
def isPrimScalar : JType → Bool
  | .string => true
  | .number => true
  | .boolean => true
  | .nullType => true
  | _ => false

/-- First-occurrence association lookup: JS property read `o[k]`. -/
def lookupKey (k : String) : List (String × JNode) → Option JNode
  | [] => none
  | (k', v) :: rest => if k' = k then some v else lookupKey k rest

/-- `Object.prototype.hasOwnProperty.call(o, k)`. -/
def hasKey (k : String) (es : List (String × JNode)) : Bool :=
  (lookupKey k es).isSome

/-- JS property write `o[k] = v`: update in place if present (keeping the
key's position), else append at the end. -/
def setKey (k : String) (v : JNode) : List (String × JNode) → List (String × JNode)
  | [] => [(k, v)]
  | (k', v') :: rest => if k' = k then (k', v) :: rest else (k', v') :: setKey k v rest

/-- JS `delete o[k]` (JS objects hold each key at most once). -/
def delKey (k : String) (es : List (String × JNode)) : List (String × JNode) :=
  es.filter (fun e => e.1 ≠ k)

/-- Well-formedness of a tree as a parsed JSON document: every object has
pairwise distinct keys. -/
def nodupKeys : List (String × JNode) → Bool
  | [] => true
  | (k, _) :: rest => !(hasKey k rest) && nodupKeys rest

mutual
def wf : JNode → Bool
  | .arr l => wfElems l
  | .obj es => nodupKeys es && wfFields es
  | _ => true

def wfElems : List JNode → Bool
  | [] => true
  | x :: xs => wf x && wfElems xs

def wfFields : List (String × JNode) → Bool
  | [] => true
  | (_, v) :: rest => wf v && wfFields rest
end

mutual
/-- utils.js `createEmptyStructure`: same shape, string leaves blanked,
numbers/booleans/null/undefined kept. -/
def createEmptyStructure : JNode → JNode
  | .arr l => .arr (emptyElems l)
  | .obj es => .obj (emptyFields es)
  | .str _ => .str ""
  | v => v

def emptyElems : List JNode → List JNode
  | [] => []
  | x :: xs => createEmptyStructure x :: emptyElems xs

def emptyFields : List (String × JNode) → List (String × JNode)
  | [] => []
  | (k, v) :: rest => (k, createEmptyStructure v) :: emptyFields rest
end

/-- Decimal rendering of a natural number, the JS template interpolation
of an array index. -/
def digitChar : Nat → Char
  | 0 => '0' | 1 => '1' | 2 => '2' | 3 => '3' | 4 => '4'
  | 5 => '5' | 6 => '6' | 7 => '7' | 8 => '8' | _ => '9'

def natReprChars (n : Nat) : List Char :=
  if _h : n < 10 then [digitChar n]
  else natReprChars (n / 10) ++ [digitChar (n % 10)]
  termination_by n
  decreasing_by exact Nat.div_lt_self (by omega) (by omega)

def natRepr (n : Nat) : String := ⟨natReprChars n⟩

/-- One record of the `addedNodesCollector`. -/
structure AddedRecord where
  path : String
  sourceValue : JNode
deriving DecidableEq

/-- The `{ updatedNode, changesMade }` return of syncStructure, together
with the records this call appended to the collector and the structural
mismatch warnings it logged. -/
structure SyncResult where
  updatedNode : JNode
  changesMade : Bool
  added : List AddedRecord
  warnings : List String
deriving DecidableEq

structure ElemsResult where
  elems : List JNode
  changed : Bool
  added : List AddedRecord
  warnings : List String
deriving DecidableEq

structure FieldsResult where
  entries : List (String × JNode)
  changed : Bool
  added : List AddedRecord
  warnings : List String
deriving DecidableEq

/-- The deleted-keys pass of the object branch: iterate the *original*
target keys and delete from the working copy every key absent from the
source; the flag records whether anything was deleted. -/
def deleteMissing (ses : List (String × JNode)) :
    List (String × JNode) → List (String × JNode) → List (String × JNode) × Bool
  | [], acc => (acc, false)
  | (k, _) :: rest, acc =>
      if hasKey k ses then deleteMissing ses rest acc
      else ((deleteMissing ses rest (delKey k acc)).1, true)

mutual
/-- The collector-bearing `syncStructure` (utils.js).  The type-mismatch
test runs first in the source; here the two container/container cases are
matched first and every other pair falls to the final arm, where the
mismatch test is performed — the same case split, since two nodes of equal
type reach the array/object arms exactly when both are arrays/objects. -/
def syncStructure (sourceNode targetNode : JNode) (currentPath : String) : SyncResult :=
  match sourceNode, targetNode with
  | .arr ss, .arr ts =>
      let r := syncElems ss ts 0 currentPath
      { updatedNode := .arr r.elems, changesMade := r.changed,
        added := r.added, warnings := r.warnings }
  | .obj ses, .obj tes =>
      let fr := syncFields ses tes currentPath
      let dr := deleteMissing ses tes fr.entries
      { updatedNode := .obj dr.1, changesMade := fr.changed || dr.2,
        added := fr.added, warnings := fr.warnings }
  | s, t =>
      if jtype s = jtype t then
        { updatedNode := t, changesMade := false, added := [], warnings := [] }
      else if isContainerType (jtype s) || isContainerType (jtype t) then
        { updatedNode := createEmptyStructure s, changesMade := true,
          added := [{ path := currentPath, sourceValue := s }],
          warnings := [currentPath] }
      else
        { updatedNode := t, changesMade := false, added := [], warnings := [] }
  termination_by structural sourceNode

/-- The `for (let i = 0; i < maxLength; i++)` array loop, as simultaneous
recursion on both element lists with the running index `i`. -/
def syncElems (ss ts : List JNode) (i : Nat) (p : String) : ElemsResult :=
  match ss, ts with
  | [], [] => ⟨[], false, [], []⟩
  | s :: ss', t :: ts' =>
      let r := syncStructure s t (p ++ "[" ++ natRepr i ++ "]")
      let rest := syncElems ss' ts' (i + 1) p
      ⟨r.updatedNode :: rest.elems, r.changesMade || rest.changed,
        r.added ++ rest.added, r.warnings ++ rest.warnings⟩
  | s :: ss', [] =>
      let rest := syncElems ss' [] (i + 1) p
      ⟨createEmptyStructure s :: rest.elems, true,
        { path := p ++ "[" ++ natRepr i ++ "]", sourceValue := s } :: rest.added,
        rest.warnings⟩
  | [], _ :: _ =>
      -- the remaining `i < targetLength` iterations: each one only logs the
      -- removal and sets `arrayChanges`; nothing is pushed or collected
      ⟨[], true, [], []⟩
  termination_by structural ss

/-- The source-key loop of the object branch, threading the working copy
`{...targetNode}` that it mutates. -/
def syncFields (ses copy : List (String × JNode)) (p : String) : FieldsResult :=
  match ses with
  | [] => ⟨copy, false, [], []⟩
  | (k, sv) :: rest =>
      match lookupKey k copy with
      | some tv =>
          let r := syncStructure sv tv (p ++ "." ++ k)
          let copy' := if r.changesMade then setKey k r.updatedNode copy else copy
          let restR := syncFields rest copy' p
          ⟨restR.entries, r.changesMade || restR.changed,
            r.added ++ restR.added, r.warnings ++ restR.warnings⟩
      | none =>
          let copy' := copy ++ [(k, createEmptyStructure sv)]
          let restR := syncFields rest copy' p
          ⟨restR.entries, true,
            { path := p ++ "." ++ k, sourceValue := sv } :: restR.added,
            restR.warnings⟩
  termination_by structural ses
end

/-! ## Structural paths

A `Step` is one navigation step of the dotted/bracketed path language:
`.key` into an object member, `[index]` into an array element.  The engine
itself only manipulates the rendered strings; the structural form is the
specification's "path sequence" (§3, Path) and is what lets us speak about
"the value at a path". -/

inductive Step where
  | key (k : String)
  | idx (i : Nat)
deriving DecidableEq

def renderStep : Step → String
  | .key k => "." ++ k
  | .idx i => "[" ++ natRepr i ++ "]"

def renderSteps : List Step → String
  | [] => ""
  | s :: rest => renderStep s ++ renderSteps rest

/-- The value of a tree at a structural path, if any. -/
def getSteps : JNode → List Step → Option JNode
  | v, [] => some v
  | .obj es, .key k :: p =>
      match lookupKey k es with
      | some v => getSteps v p
      | none => none
  | .arr l, .idx i :: p =>
      match l[i]? with
      | some v => getSteps v p
      | none => none
  | _, _ :: _ => none

/-- The container-shape agreement used by the convergence claim:
if `v` is an object, `o` holds an object with the same key set; if `v` is
an array, `o` holds an array of the same length; scalars are
unconstrained. -/
def shapeOK (v : JNode) (o : Option JNode) : Prop :=
  match v with
  | .obj kvs => ∃ kvs', o = some (.obj kvs') ∧
      ∀ k, hasKey k kvs = true ↔ hasKey k kvs' = true
  | .arr l => ∃ l', o = some (.arr l') ∧ l.length = l'.length
  | _ => True

/-! ## The path mini-language of `setValueAtPath`

`pathString.replace(/^root\.?/, '').split(/\.|\[(\d+)\]/).filter(Boolean)`:
strip a leading `root` (with optional dot), then split on separators that
are either a single `.` (no capture) or `[digits]` (capturing the digits);
`filter(Boolean)` drops the empty pieces and the unset captures.  The
scanner below walks the characters left to right exactly as the regex
does: at `[` it matches a maximal digit run that must be followed by `]`
(greedy matching needs no backtracking: a shorter digit run would abut a
digit, never `]`), otherwise the character joins the current piece. -/

def stripRoot : List Char → List Char
  | 'r' :: 'o' :: 'o' :: 't' :: '.' :: rest => rest
  | 'r' :: 'o' :: 'o' :: 't' :: rest => rest
  | s => s

def spanDigits : List Char → List Char × List Char
  | [] => ([], [])
  | c :: cs =>
      if c.isDigit then
        let r := spanDigits cs
        (c :: r.1, r.2)
      else ([], c :: cs)

/-- The split scanner.  Each round consumes at least one input character
(a bracket separator consumes its digits and brackets too, and the fuel
bound only ever needs one unit per round), so fuel equal to the input
length always suffices; the fuel keeps the recursion structural. -/
def scanAux : Nat → List Char → List Char → List (List Char)
  | 0, _, acc => [acc.reverse]
  | _, [], acc => [acc.reverse]
  | fuel + 1, c :: rest, acc =>
      if c = '.' then acc.reverse :: scanAux fuel rest []
      else if c = '[' then
        match spanDigits rest with
        | (d :: ds, ']' :: rest') => acc.reverse :: (d :: ds) :: scanAux fuel rest' []
        | _ => scanAux fuel rest ('[' :: acc)
      else scanAux fuel rest (c :: acc)

def parsePath (pathString : String) : List String :=
  ((scanAux (stripRoot pathString.data).length (stripRoot pathString.data) []).filter
      (fun t => !t.isEmpty)).map
    (fun l => ⟨l⟩)

/-- `/^\d+$/.test(segment)`. -/
def isNumericSeg (s : String) : Bool :=
  !s.data.isEmpty && s.data.all Char.isDigit

/-- Numeric value of an all-digit segment (JS array index coercion). -/
def segToNat (s : String) : Nat :=
  s.data.foldl (fun a c => a * 10 + (c.toNat - 48)) 0

/-- JS array element write `a[i] = v`: indices beyond the length extend the
array, the skipped positions becoming holes that read back as `undefined`. -/
def arrSet : List JNode → Nat → JNode → List JNode
  | [], 0, v => [v]
  | [], i + 1, v => .undef :: arrSet [] i v
  | _ :: rest, 0, v => v :: rest
  | x :: rest, i + 1, v => x :: arrSet rest i v

/-- JS property read `current[segment]` on the tree model: key lookup on
objects, numeric-index read on arrays (a non-index property of an array is
invisible to the JSON value model), `undefined` everywhere else. -/
def childAt (t : JNode) (seg : String) : JNode :=
  match t with
  | .obj es => (lookupKey seg es).getD .undef
  | .arr l => if isNumericSeg seg then ((l[segToNat seg]?).getD .undef) else .undef
  | _ => (.undef)

/-- JS property write `current[segment] = v` on the tree model.  Writing a
non-index property onto an array, or any property onto a primitive (a
strict-mode `TypeError`, swallowed by the `try`), leaves the JSON value
unchanged. -/
def setChild (t : JNode) (seg : String) (v : JNode) : JNode :=
  match t with
  | .obj es => .obj (setKey seg v es)
  | .arr l => if isNumericSeg seg then .arr (arrSet l (segToNat seg) v) else .arr l
  | other => other

/-- The create-and-correct step of the traversal loop: after it,
`current[segment]` is an array when the next segment is numeric and a plain
object otherwise (fresh `[]`/`{}` replacing `undefined`, `null`, and every
mismatched kind). -/
def correctChild (child : JNode) (nextIsIndex : Bool) : JNode :=
  if nextIsIndex then
    match child with
    | .arr l => .arr l
    | _ => .arr []
  else
    match child with
    | .obj es => .obj es
    | _ => .obj []

/-- The traversal-and-final-assignment of `setValueAtPath` over an already
parsed segment list. -/
def setSegs (t : JNode) (segs : List String) (v : JNode) : JNode :=
  match segs with
  | [] => t
  | [seg] => setChild t seg v
  | seg :: next :: rest =>
      let child := correctChild (childAt t seg) (isNumericSeg next)
      setChild t seg (setSegs child (next :: rest) v)

/-- utils.js `setValueAtPath`.  With an empty segment list (path `root`,
or a path of only separators) the JS loop body never runs and
`pathSegments[pathSegments.length - 1]` is `undefined`, so the final
assignment writes the key `"undefined"` onto an object root (on an array
or primitive root the write is invisible / throws and is swallowed). -/
def setValueAtPath (obj : JNode) (pathString : String) (value : JNode) : JNode :=
  match parsePath pathString with
  | [] =>
      match obj with
      | .obj es => .obj (setKey "undefined" value es)
      | other => other
  | seg :: rest => setSegs obj (seg :: rest) value

/-- Modelled from the spec: "reading the value back at that same path"
(§8, round-trip reinjection).  The repository has a path *writer* only, so
the reader is modelled from the spec's words with the same path grammar:
parse the string as `setValueAtPath` does, then walk the tree — object
steps look up the key, array steps require a numeric segment. -/
def getSegsVal : JNode → List String → Option JNode
  | v, [] => some v
  | .obj es, seg :: rest =>
      match lookupKey seg es with
      | some c => getSegsVal c rest
      | none => none
  | .arr l, seg :: rest =>
      if isNumericSeg seg then
        match l[segToNat seg]? with
        | some c => getSegsVal c rest
        | none => none
      else none
  | _, _ :: _ => none

def getValueAtPath (obj : JNode) (pathString : String) : Option JNode :=
  getSegsVal obj (parsePath pathString)

/-- A key that survives the render/parse round trip of the path
mini-language: nonempty, no `.`, no `[`. -/
def cleanKey (k : String) : Bool :=
  !k.data.isEmpty && k.data.all (fun c => c ≠ '.' && c ≠ '[')

mutual
def cleanNode : JNode → Bool
  | .arr l => cleanElems l
  | .obj es => cleanFields es
  | _ => true

def cleanElems : List JNode → Bool
  | [] => true
  | x :: xs => cleanNode x && cleanElems xs

def cleanFields : List (String × JNode) → Bool
  | [] => true
  | (k, v) :: rest => cleanKey k && cleanNode v && cleanFields rest
end

/-- The parsed segment a structural step renders to. -/
def segOfStep : Step → String
  | .key k => k
  | .idx i => natRepr i

def stepClean : Step → Bool
  | .key k => cleanKey k
  | .idx _ => true

/-- Fuel actually consumed by the split scanner on a rendered step list:
one unit per separator character, one more per clean key character (a
bracket round consumes its digits and closing bracket for free). -/
def scanCost : List Step → Nat
  | [] => 0
  | .key k :: rest => 1 + k.data.length + scanCost rest
  | .idx _ :: rest => 1 + scanCost rest

/-- The container/segment agreement the traversal of `setValueAtPath`
needs at its entry point only: an object accepts any segment, an array
only a numeric one.  (Below the root the loop repairs every mismatch
itself via the create-and-correct step.) -/
def segMatch (t : JNode) (seg : String) : Prop :=
  match t with
  | .obj _ => True
  | .arr _ => isNumericSeg seg = true
  | _ => False

/-! ## translator.js — batch translation of a fragment

`translateStructureInBatches` collects the non-blank string leaves of a
fragment in pre-order, sends them to the translation capability in batches
of 30, aborts wholesale if a batch comes back with the wrong length, and
otherwise rebuilds the fragment replacing the string leaves positionally.
The external capability (`translateBatchInternal`, which wraps the model
call) is abstracted as the injected function `tb`, per the specification's
translator interface (§4.5, §6); the model assumes an initialized
translator (the uninitialized early-return is outside every claim). -/

/-- The whitespace class of JS `trim` (ASCII part; the claims only involve
ASCII strings). -/
def jsWhitespace (c : Char) : Bool :=
  c = ' ' || c = '\t' || c = '\n' || c = '\r' || c.toNat = 11 || c.toNat = 12

/-- `!(s.trim())`: no non-whitespace character. -/
def isBlankString (s : String) : Bool :=
  s.data.all jsWhitespace

mutual
/-- translator.js `collectStrings`: pre-order collection of the non-blank
string leaves. -/
def collectStrings : JNode → List String
  | .arr l => collectElems l
  | .obj es => collectFields es
  | .str s => if isBlankString s then [] else [s]
  | _ => []

def collectElems : List JNode → List String
  | [] => []
  | x :: xs => collectStrings x ++ collectElems xs

def collectFields : List (String × JNode) → List String
  | [] => []
  | (_, v) :: rest => collectStrings v ++ collectFields rest
end

/-- The `for (let i = 0; i < n; i += BATCH_SIZE) slice(i, i + BATCH_SIZE)`
partition into batches of 30.  Each round consumes at least one element,
so fuel equal to the list length always suffices and keeps the recursion
structural. -/
def toBatchesAux : Nat → List String → List (List String)
  | 0, _ => []
  | _, [] => []
  | fuel + 1, x :: xs => ((x :: xs).take 30) :: toBatchesAux fuel ((x :: xs).drop 30)

def toBatches (l : List String) : List (List String) :=
  toBatchesAux l.length l

/-- Run the batches in order through the injected capability; `none` models
the abort on the first batch whose result length differs from its input
length (the source pushes the bad batch before checking, then discards
everything by returning early). -/
def processBatches (bs : List (List String)) (tb : List String → List String) :
    Option (List String) :=
  match bs with
  | [] => some []
  | b :: rest =>
      let r := tb b
      if r.length ≠ b.length then none
      else
        match processBatches rest tb with
        | none => none
        | some l => some (r ++ l)

mutual
/-- translator.js `reconstructStructure`: rebuild the fragment, replacing
each non-blank string leaf by `list[index] ?? node` and advancing the
shared cursor; everything else passes through. -/
def reconstructStructure : JNode → List String → Nat → JNode × Nat
  | .arr l, xs, i =>
      let r := reconstructElems l xs i
      (.arr r.1, r.2)
  | .obj es, xs, i =>
      let r := reconstructFields es xs i
      (.obj r.1, r.2)
  | .str s, xs, i =>
      if isBlankString s then (.str s, i)
      else (.str ((xs[i]?).getD s), i + 1)
  | v, _, i => (v, i)

def reconstructElems : List JNode → List String → Nat → List JNode × Nat
  | [], _, i => ([], i)
  | x :: rest, xs, i =>
      let r := reconstructStructure x xs i
      let rr := reconstructElems rest xs r.2
      (r.1 :: rr.1, rr.2)

def reconstructFields :
    List (String × JNode) → List String → Nat → List (String × JNode) × Nat
  | [], _, i => ([], i)
  | (k, v) :: rest, xs, i =>
      let r := reconstructStructure v xs i
      let rr := reconstructFields rest xs r.2
      ((k, r.1) :: rr.1, rr.2)
end

/-- translator.js `translateStructureInBatches`. -/
def translateStructureInBatches (frag : JNode) (tb : List String → List String) :
    JNode :=
  let originals := collectStrings frag
  if originals.isEmpty then frag
  else
    match processBatches (toBatches originals) tb with
    | none => frag
    | some allTranslated =>
        if allTranslated.length ≠ originals.length then frag
        else (reconstructStructure frag allTranslated 0).1

/-! ## translator.js — placeholder extraction and comparison

`PLACEHOLDER_REGEX = /(\{\{\s*[\w.]+\s*\}\}|{\s*[\w.]+\s*}|%[sd]|\%\{[\w.]+\}|:\w+)/g`

`match` scans left to right; at each position the five alternatives are
tried in order and the first that matches wins; on failure the scan
advances one character.  Each alternative's pieces draw on disjoint
character classes (`\s` vs `[\w.]` vs the closers), so maximal-munch per
piece is exactly the regex's greedy backtracking semantics. -/

/-- JS `\w` (no unicode flag): ASCII letters, digits, underscore. -/
def wordChar (c : Char) : Bool :=
  c.isAlpha || c.isDigit || c = '_'

def wordDotChar (c : Char) : Bool :=
  wordChar c || c = '.'

/-- `\{\{\s*[\w.]+\s*\}\}`. -/
def matchAlt1 : List Char → Option (List Char × List Char)
  | '{' :: '{' :: rest =>
      let ws1 := rest.takeWhile jsWhitespace
      let r1 := rest.dropWhile jsWhitespace
      let tok := r1.takeWhile wordDotChar
      let r2 := r1.dropWhile wordDotChar
      if tok.isEmpty then none
      else
        let ws2 := r2.takeWhile jsWhitespace
        match r2.dropWhile jsWhitespace with
        | '}' :: '}' :: rest' =>
            some ('{' :: '{' :: (ws1 ++ tok ++ ws2 ++ ['}', '}']), rest')
        | _ => none
  | _ => none

/-- `{\s*[\w.]+\s*}`. -/
def matchAlt2 : List Char → Option (List Char × List Char)
  | '{' :: rest =>
      let ws1 := rest.takeWhile jsWhitespace
      let r1 := rest.dropWhile jsWhitespace
      let tok := r1.takeWhile wordDotChar
      let r2 := r1.dropWhile wordDotChar
      if tok.isEmpty then none
      else
        let ws2 := r2.takeWhile jsWhitespace
        match r2.dropWhile jsWhitespace with
        | '}' :: rest' => some ('{' :: (ws1 ++ tok ++ ws2 ++ ['}']), rest')
        | _ => none
  | _ => none

/-- `%[sd]`. -/
def matchAlt3 : List Char → Option (List Char × List Char)
  | '%' :: 's' :: rest => some (['%', 's'], rest)
  | '%' :: 'd' :: rest => some (['%', 'd'], rest)
  | _ => none

/-- `\%\{[\w.]+\}`. -/
def matchAlt4 : List Char → Option (List Char × List Char)
  | '%' :: '{' :: rest =>
      let tok := rest.takeWhile wordDotChar
      if tok.isEmpty then none
      else
        match rest.dropWhile wordDotChar with
        | '}' :: rest' => some ('%' :: '{' :: (tok ++ ['}']), rest')
        | _ => none
  | _ => none

/-- `:\w+`. -/
def matchAlt5 : List Char → Option (List Char × List Char)
  | ':' :: rest =>
      let tok := rest.takeWhile wordChar
      if tok.isEmpty then none
      else some (':' :: tok, rest.dropWhile wordChar)
  | _ => none

def matchPlaceholder (input : List Char) : Option (List Char × List Char) :=
  match matchAlt1 input with
  | some r => some r
  | none =>
      match matchAlt2 input with
      | some r => some r
      | none =>
          match matchAlt3 input with
          | some r => some r
          | none =>
              match matchAlt4 input with
              | some r => some r
              | none => matchAlt5 input

/-- The `/g` scan.  Every successful match consumes at least one character,
so fuel equal to the input length always suffices and the recursion is
structurally total. -/
def scanPlaceholders (fuel : Nat) (input : List Char) : List String :=
  match fuel, input with
  | 0, _ => []
  | _, [] => []
  | fuel + 1, input =>
      match matchPlaceholder input with
      | some (m, rest) => String.mk m :: scanPlaceholders fuel rest
      | none =>
          match input with
          | [] => []
          | _ :: rest => scanPlaceholders fuel rest

/-- `[...new Set(matches)]`: first-occurrence deduplication. -/
def firstDedup (l : List String) : List String :=
  l.foldl (fun acc x => if x ∈ acc then acc else acc ++ [x]) []

/-- `.sort()`: JS default lexicographic string sort (on the ASCII tokens
the placeholder classes produce, code-unit order and Lean's `≤` on
`String` agree). -/
def insertSorted (x : String) : List String → List String
  | [] => [x]
  | y :: rest => if x ≤ y then x :: y :: rest else y :: insertSorted x rest

def sortStrings (l : List String) : List String :=
  l.foldr insertSorted []

/-- translator.js `extractPlaceholders`. -/
def extractPlaceholders (text : String) : List String :=
  sortStrings (firstDedup (scanPlaceholders text.data.length text.data))

/-- translator.js `comparePlaceholders` (the `identifier` argument is only
interpolated into the warnings and is dropped). -/
def comparePlaceholders (sourceText translatedText : String) : Bool :=
  let sourcePlaceholders := extractPlaceholders sourceText
  let translatedPlaceholders := extractPlaceholders translatedText
  if sourcePlaceholders.length = 0 then true
  else if sourcePlaceholders.length ≠ translatedPlaceholders.length then false
  else !(sourcePlaceholders.zip translatedPlaceholders).any (fun q => q.1 ≠ q.2)

/-! ## Association-list lemmas -/

theorem lookupKey_setKey_self (k : String) (v : JNode) (l : List (String × JNode)) :
    lookupKey k (setKey k v l) = some v := by
  induction l with
  | nil => simp [setKey, lookupKey]
  | cons e rest ih =>
      obtain ⟨k', v'⟩ := e
      by_cases h : k' = k <;> simp [setKey, lookupKey, h, ih]

theorem lookupKey_setKey_ne (h : k' ≠ k) (v : JNode) (l : List (String × JNode)) :
    lookupKey k (setKey k' v l) = lookupKey k l := by
  induction l with
  | nil => simp [setKey, lookupKey, h]
  | cons e rest ih =>
      obtain ⟨k'', v''⟩ := e
      by_cases h2 : k'' = k' <;> by_cases h3 : k'' = k <;>
        simp_all [setKey, lookupKey]

theorem lookupKey_append_of_some (h : lookupKey k l = some v) (l' : List (String × JNode)) :
    lookupKey k (l ++ l') = some v := by
  induction l with
  | nil => simp [lookupKey] at h
  | cons e rest ih =>
      obtain ⟨k', v'⟩ := e
      by_cases h2 : k' = k <;> simp_all [lookupKey]

theorem lookupKey_append_of_none (h : lookupKey k l = none) (l' : List (String × JNode)) :
    lookupKey k (l ++ l') = lookupKey k l' := by
  induction l with
  | nil => simp [lookupKey]
  | cons e rest ih =>
      obtain ⟨k', v'⟩ := e
      by_cases h2 : k' = k <;> simp_all [lookupKey]

theorem lookupKey_delKey_ne (h : k ≠ k₀) (l : List (String × JNode)) :
    lookupKey k (delKey k₀ l) = lookupKey k l := by
  induction l with
  | nil => simp [delKey, lookupKey]
  | cons e rest ih =>
      obtain ⟨k', v'⟩ := e
      by_cases h2 : k' = k₀ <;> by_cases h3 : k' = k <;>
        simp_all [delKey, lookupKey]

theorem hasKey_delKey_self (k : String) (l : List (String × JNode)) :
    hasKey k (delKey k l) = false := by
  induction l with
  | nil => simp [delKey, hasKey, lookupKey]
  | cons e rest ih =>
      obtain ⟨k', v'⟩ := e
      by_cases h : k' = k <;> simp_all [delKey, hasKey, lookupKey]

theorem hasKey_cons :
    hasKey k ((k', v) :: l) = true ↔ (k' = k ∨ hasKey k l = true) := by
  by_cases h : k' = k <;> simp [hasKey, lookupKey, h]

theorem hasKey_iff_lookup :
    hasKey k l = true ↔ ∃ v, lookupKey k l = some v := by
  cases h : lookupKey k l <;> simp [hasKey, h]

theorem hasKey_false_lookup :
    hasKey k l = false ↔ lookupKey k l = none := by
  cases h : lookupKey k l <;> simp [hasKey, h]

theorem hasKey_setKey :
    hasKey k (setKey k' v l) = true ↔ (hasKey k l = true ∨ k = k') := by
  by_cases h : k' = k
  · subst h
    simp [hasKey, lookupKey_setKey_self]
  · rw [hasKey, lookupKey_setKey_ne h]
    have : ¬ k = k' := fun hh => h hh.symm
    simp [hasKey, this]

theorem hasKey_append_single :
    hasKey k (l ++ [(k', v)]) = true ↔ (hasKey k l = true ∨ k' = k) := by
  cases h : lookupKey k l with
  | some w => rw [hasKey, lookupKey_append_of_some h]; simp [hasKey, h]
  | none =>
      rw [hasKey, lookupKey_append_of_none h]
      by_cases h2 : k' = k <;> simp [hasKey, lookupKey, h, h2]

theorem lookupKey_mem (h : lookupKey k l = some v) : (k, v) ∈ l := by
  induction l with
  | nil => simp [lookupKey] at h
  | cons e rest ih =>
      obtain ⟨k', v'⟩ := e
      by_cases h2 : k' = k <;> simp_all [lookupKey]

theorem wfFields_lookup (hw : wfFields l = true) (h : lookupKey k l = some v) :
    wf v = true := by
  induction l with
  | nil => simp [lookupKey] at h
  | cons e rest ih =>
      obtain ⟨k', v'⟩ := e
      rw [wfFields] at hw
      by_cases h2 : k' = k <;> simp_all [lookupKey]

theorem wfElems_get {l : List JNode} {i : Nat} {x : JNode}
    (hw : wfElems l = true) (h : l[i]? = some x) :
    wf x = true := by
  induction l generalizing i with
  | nil => simp at h
  | cons e rest ih =>
      rw [wfElems] at hw
      cases i with
      | zero => simp at h; simp_all
      | succ j => simp at h; exact ih (by simp_all) h

theorem cleanFields_lookup (hw : cleanFields l = true) (h : lookupKey k l = some v) :
    cleanKey k = true ∧ cleanNode v = true := by
  induction l with
  | nil => simp [lookupKey] at h
  | cons e rest ih =>
      obtain ⟨k', v'⟩ := e
      rw [cleanFields] at hw
      by_cases h2 : k' = k <;> simp_all [lookupKey]

theorem cleanElems_get {l : List JNode} {i : Nat} {x : JNode}
    (hw : cleanElems l = true) (h : l[i]? = some x) :
    cleanNode x = true := by
  induction l generalizing i with
  | nil => simp at h
  | cons e rest ih =>
      rw [cleanElems] at hw
      cases i with
      | zero => simp at h; simp_all
      | succ j => simp at h; exact ih (by simp_all) h

/-! ## `createEmptyStructure` lemmas -/

theorem lookupKey_emptyFields (k : String) (es : List (String × JNode)) :
    lookupKey k (emptyFields es) = (lookupKey k es).map createEmptyStructure := by
  induction es with
  | nil => simp [emptyFields, lookupKey]
  | cons e rest ih =>
      obtain ⟨k', v'⟩ := e
      by_cases h : k' = k <;> simp [emptyFields, lookupKey, h, ih]

theorem hasKey_emptyFields (k : String) (es : List (String × JNode)) :
    hasKey k (emptyFields es) = hasKey k es := by
  rw [hasKey, hasKey, lookupKey_emptyFields]
  cases lookupKey k es <;> simp

theorem emptyElems_get (l : List JNode) (i : Nat) :
    (emptyElems l)[i]? = (l[i]?).map createEmptyStructure := by
  induction l generalizing i with
  | nil => simp [emptyElems]
  | cons x rest ih =>
      cases i <;> simp [emptyElems, ih]

theorem emptyElems_length (l : List JNode) :
    (emptyElems l).length = l.length := by
  induction l with
  | nil => simp [emptyElems]
  | cons x rest ih => simp [emptyElems, ih]

theorem jtype_createEmpty (v : JNode) :
    jtype (createEmptyStructure v) = jtype v := by
  cases v <;> simp [createEmptyStructure, jtype]

theorem getSteps_createEmpty (p : List Step) :
    ∀ v, getSteps (createEmptyStructure v) p = (getSteps v p).map createEmptyStructure := by
  induction p with
  | nil => intro v; simp [getSteps]
  | cons s rest ih =>
      intro v
      cases s with
      | key k =>
          cases v with
          | obj es =>
              simp only [createEmptyStructure, getSteps]
              rw [lookupKey_emptyFields]
              cases h : lookupKey k es <;> simp [ih]
          | arr l => simp [createEmptyStructure, getSteps]
          | str s2 => simp [createEmptyStructure, getSteps]
          | num n => simp [createEmptyStructure, getSteps]
          | bool b => simp [createEmptyStructure, getSteps]
          | null => simp [createEmptyStructure, getSteps]
          | undef => simp [createEmptyStructure, getSteps]
      | idx i =>
          cases v with
          | arr l =>
              simp only [createEmptyStructure, getSteps]
              rw [emptyElems_get]
              cases h : l[i]? <;> simp [ih]
          | obj es => simp [createEmptyStructure, getSteps]
          | str s2 => simp [createEmptyStructure, getSteps]
          | num n => simp [createEmptyStructure, getSteps]
          | bool b => simp [createEmptyStructure, getSteps]
          | null => simp [createEmptyStructure, getSteps]
          | undef => simp [createEmptyStructure, getSteps]

theorem shapeOK_createEmpty (w : JNode) :
    shapeOK (createEmptyStructure w) (some w) := by
  cases w with
  | arr l =>
      show shapeOK (.arr (emptyElems l)) (some (.arr l))
      exact ⟨l, rfl, emptyElems_length l⟩
  | obj es =>
      show shapeOK (.obj (emptyFields es)) (some (.obj es))
      exact ⟨es, rfl, fun k => by rw [hasKey_emptyFields]⟩
  | str s => exact trivial
  | num n => exact trivial
  | bool b => exact trivial
  | null => exact trivial
  | undef => exact trivial

/-! ## Decimal rendering lemmas -/

theorem digitChar_isDigit (m : Nat) : (digitChar m).isDigit = true := by
  unfold digitChar
  split <;> decide

theorem digitChar_val (h : m < 10) : (digitChar m).toNat - 48 = m := by
  interval_cases m <;> decide

theorem natReprChars_digits (n : Nat) : ∀ c ∈ natReprChars n, c.isDigit = true := by
  induction n using natReprChars.induct with
  | case1 n h => rw [natReprChars]; simp [h]; exact digitChar_isDigit n
  | case2 n h ih =>
      rw [natReprChars]
      simp [h]
      intro c hc
      rcases hc with hc | hc
      · exact ih c hc
      · rw [hc]; exact digitChar_isDigit _

theorem natReprChars_ne_nil (n : Nat) : natReprChars n ≠ [] := by
  rw [natReprChars]
  split <;> simp

theorem isNumericSeg_natRepr (n : Nat) : isNumericSeg (natRepr n) = true := by
  have h1 := natReprChars_ne_nil n
  have h2 := natReprChars_digits n
  simp [isNumericSeg, natRepr]
  exact ⟨h1, h2⟩

theorem segToNat_natRepr (n : Nat) : segToNat (natRepr n) = n := by
  suffices h : ∀ m, (natReprChars n).foldl (fun a c => a * 10 + (c.toNat - 48)) m
      = m * 10 ^ (natReprChars n).length + n by
    have := h 0
    simpa [segToNat, natRepr] using this
  induction n using natReprChars.induct with
  | case1 n h =>
      intro m
      rw [natReprChars]
      simp [h, digitChar_val h]
  | case2 n h ih =>
      intro m
      rw [natReprChars]
      rw [dif_neg h]
      have hlen : (natReprChars (n / 10) ++ [digitChar (n % 10)]).length
          = (natReprChars (n / 10)).length + 1 := by simp
      rw [hlen, pow_succ, List.foldl_append, ih m]
      simp only [List.foldl]
      rw [digitChar_val (Nat.mod_lt n (by omega))]
      have hdm : n / 10 * 10 + n % 10 = n := by omega
      calc (m * 10 ^ (natReprChars (n / 10)).length + n / 10) * 10 + n % 10
          = m * (10 ^ (natReprChars (n / 10)).length * 10) + (n / 10 * 10 + n % 10) := by
            ring
        _ = m * (10 ^ (natReprChars (n / 10)).length * 10) + n := by rw [hdm]

/-! ## `deleteMissing` lemmas -/

theorem deleteMissing_lookup_of_src (hk : hasKey k ses = true) :
    ∀ tes acc, lookupKey k (deleteMissing ses tes acc).1 = lookupKey k acc := by
  intro tes
  induction tes with
  | nil => intro acc; simp [deleteMissing]
  | cons e rest ih =>
      intro acc
      obtain ⟨k₀, v₀⟩ := e
      by_cases h : hasKey k₀ ses = true
      · simp [deleteMissing, h, ih]
      · have hne : k ≠ k₀ := by rintro rfl; exact h hk
        simp only [deleteMissing, if_neg h]
        rw [ih, lookupKey_delKey_ne hne]

theorem deleteMissing_hasKey_false (ses : List (String × JNode)) (k : String) :
    ∀ tes acc, hasKey k acc = false → hasKey k (deleteMissing ses tes acc).1 = false := by
  intro tes
  induction tes with
  | nil => intro acc h; simpa [deleteMissing] using h
  | cons e rest ih =>
      intro acc h
      obtain ⟨k₀, v₀⟩ := e
      by_cases h2 : hasKey k₀ ses = true
      · simp only [deleteMissing, if_pos h2]; exact ih acc h
      · simp only [deleteMissing, if_neg h2]
        apply ih
        by_cases h3 : k = k₀
        · subst h3; exact hasKey_delKey_self k acc
        · rw [hasKey] at h ⊢
          rw [lookupKey_delKey_ne h3]; exact h

theorem deleteMissing_del (hks : hasKey k ses = false) :
    ∀ tes acc, hasKey k tes = true → hasKey k (deleteMissing ses tes acc).1 = false := by
  intro tes
  induction tes with
  | nil => intro acc h; simp [hasKey, lookupKey] at h
  | cons e rest ih =>
      intro acc h
      obtain ⟨k₀, v₀⟩ := e
      by_cases h3 : k = k₀
      · subst h3
        have h2 : ¬ hasKey k ses = true := by simp [hks]
        simp only [deleteMissing, if_neg h2]
        exact deleteMissing_hasKey_false ses k rest _ (hasKey_delKey_self k acc)
      · have hrest : hasKey k rest = true := by
          rcases hasKey_cons.1 h with h4 | h4
          · exact absurd h4.symm h3
          · exact h4
        by_cases h2 : hasKey k₀ ses = true
        · simp only [deleteMissing, if_pos h2]; exact ih acc hrest
        · simp only [deleteMissing, if_neg h2]; exact ih _ hrest

theorem deleteMissing_all_present :
    ∀ tes acc, (∀ kv ∈ tes, hasKey kv.1 ses = true) →
      deleteMissing ses tes acc = (acc, false) := by
  intro tes
  induction tes with
  | nil => intro acc _; simp [deleteMissing]
  | cons e rest ih =>
      intro acc h
      obtain ⟨k₀, v₀⟩ := e
      have h0 : hasKey k₀ ses = true := h (k₀, v₀) (by simp)
      simp only [deleteMissing, if_pos h0]
      exact ih acc (fun kv hkv => h kv (by simp [hkv]))

theorem deleteMissing_flag_false :
    ∀ tes acc, (deleteMissing ses tes acc).2 = false →
      (deleteMissing ses tes acc).1 = acc := by
  intro tes
  induction tes with
  | nil => intro acc _; simp [deleteMissing]
  | cons e rest ih =>
      intro acc h
      obtain ⟨k₀, v₀⟩ := e
      by_cases h2 : hasKey k₀ ses = true
      · simp only [deleteMissing, if_pos h2] at h ⊢; exact ih acc h
      · simp only [deleteMissing, if_neg h2] at h
        exact absurd h (by decide)

/-! ## Unfolding equations for the merge -/

theorem syncStructure_arr (ss ts : List JNode) (p : String) :
    syncStructure (.arr ss) (.arr ts) p
      = { updatedNode := .arr (syncElems ss ts 0 p).elems,
          changesMade := (syncElems ss ts 0 p).changed,
          added := (syncElems ss ts 0 p).added,
          warnings := (syncElems ss ts 0 p).warnings } := rfl

theorem syncStructure_obj (ses tes : List (String × JNode)) (p : String) :
    syncStructure (.obj ses) (.obj tes) p
      = { updatedNode := .obj (deleteMissing ses tes (syncFields ses tes p).entries).1,
          changesMade := (syncFields ses tes p).changed
            || (deleteMissing ses tes (syncFields ses tes p).entries).2,
          added := (syncFields ses tes p).added,
          warnings := (syncFields ses tes p).warnings } := rfl

/-- The non-container-pair arm of `syncStructure`: the type-mismatch test
followed by the keep-target default. -/
theorem syncStructure_other {s t : JNode}
    (hne1 : ∀ ss ts, s = JNode.arr ss → t = JNode.arr ts → False)
    (hne2 : ∀ ses tes, s = JNode.obj ses → t = JNode.obj tes → False) (p : String) :
    syncStructure s t p
      = if jtype s = jtype t then ⟨t, false, [], []⟩
        else if isContainerType (jtype s) || isContainerType (jtype t) then
          ⟨createEmptyStructure s, true, [⟨p, s⟩], [p]⟩
        else ⟨t, false, [], []⟩ := by
  cases s <;> cases t <;>
    first
      | exact (hne1 _ _ rfl rfl).elim
      | exact (hne2 _ _ rfl rfl).elim
      | rfl

theorem syncElems_cons_cons (s t : JNode) (ss' ts' : List JNode) (i : Nat) (p : String) :
    syncElems (s :: ss') (t :: ts') i p
      = ⟨(syncStructure s t (p ++ "[" ++ natRepr i ++ "]")).updatedNode
            :: (syncElems ss' ts' (i + 1) p).elems,
          (syncStructure s t (p ++ "[" ++ natRepr i ++ "]")).changesMade
            || (syncElems ss' ts' (i + 1) p).changed,
          (syncStructure s t (p ++ "[" ++ natRepr i ++ "]")).added
            ++ (syncElems ss' ts' (i + 1) p).added,
          (syncStructure s t (p ++ "[" ++ natRepr i ++ "]")).warnings
            ++ (syncElems ss' ts' (i + 1) p).warnings⟩ := rfl

theorem syncElems_cons_nil (s : JNode) (ss' : List JNode) (i : Nat) (p : String) :
    syncElems (s :: ss') [] i p
      = ⟨createEmptyStructure s :: (syncElems ss' [] (i + 1) p).elems, true,
          { path := p ++ "[" ++ natRepr i ++ "]", sourceValue := s }
            :: (syncElems ss' [] (i + 1) p).added,
          (syncElems ss' [] (i + 1) p).warnings⟩ := rfl

theorem syncFields_cons_some {k : String} {copy : List (String × JNode)} {tv : JNode}
    (hl : lookupKey k copy = some tv) (sv : JNode) (rest : List (String × JNode))
    (p : String) :
    syncFields ((k, sv) :: rest) copy p
      = (let r := syncStructure sv tv (p ++ "." ++ k)
         let copy' := if r.changesMade then setKey k r.updatedNode copy else copy
         let restR := syncFields rest copy' p
         ⟨restR.entries, r.changesMade || restR.changed,
            r.added ++ restR.added, r.warnings ++ restR.warnings⟩) := by
  simp only [syncFields, hl]

theorem syncFields_cons_none {k : String} {copy : List (String × JNode)}
    (hl : lookupKey k copy = none) (sv : JNode) (rest : List (String × JNode))
    (p : String) :
    syncFields ((k, sv) :: rest) copy p
      = (let copy' := copy ++ [(k, createEmptyStructure sv)]
         let restR := syncFields rest copy' p
         ⟨restR.entries, true,
            { path := p ++ "." ++ k, sourceValue := sv } :: restR.added,
            restR.warnings⟩) := by
  simp only [syncFields, hl]

/-! ## The merge: no-change means the target is returned unchanged -/

theorem sync_noChange (s t : JNode) (p : String) :
    (syncStructure s t p).changesMade = false → (syncStructure s t p).updatedNode = t := by
  refine (syncStructure.mutual_induct
    (motive_1 := fun s t p =>
      (syncStructure s t p).changesMade = false → (syncStructure s t p).updatedNode = t)
    (motive_2 := fun ses copy p =>
      (syncFields ses copy p).changed = false → (syncFields ses copy p).entries = copy)
    (motive_3 := fun ss ts i p =>
      (syncElems ss ts i p).changed = false → (syncElems ss ts i p).elems = ts)
    ?_ ?_ ?_ ?_ ?_ ?_ ?_ ?_ ?_ ?_ ?_ ?_).1 s t p
  · intro p ss ts ih h
    rw [syncStructure_arr] at h ⊢
    rw [ih h]
  · intro p ses tes ih h
    rw [syncStructure_obj] at h ⊢
    simp only at h ⊢
    rcases Bool.or_eq_false_iff.mp h with ⟨h1, h2⟩
    rw [deleteMissing_flag_false _ _ h2, ih h1]
  · intro p s t hne1 hne2 heq h
    rw [syncStructure_other hne1 hne2 p, if_pos heq] at h ⊢
  · intro p s t hne1 hne2 hne hc h
    rw [syncStructure_other hne1 hne2 p, if_neg hne, if_pos hc] at h
    simp at h
  · intro p s t hne1 hne2 hne hc h
    rw [syncStructure_other hne1 hne2 p, if_neg hne, if_neg hc] at h ⊢
  · intro i p h
    rfl
  · intro i p s ss' t ts' ih1 ih2 h
    rw [syncElems_cons_cons] at h ⊢
    simp only at h ⊢
    rcases Bool.or_eq_false_iff.mp h with ⟨h1, h2⟩
    rw [ih1 h1, ih2 h2]
  · intro i p s ss' ih h
    rw [syncElems_cons_nil] at h
    exact absurd h (by simp)
  · intro i p x xs h
    exact absurd h (by simp [syncElems])
  · intro copy p h
    rfl
  · intro copy p k' v rest tv hl
    dsimp only
    intro ih1 ih2 h
    rw [syncFields_cons_some hl] at h ⊢
    simp only at h ⊢
    rcases Bool.or_eq_false_iff.mp h with ⟨h1, h2⟩
    rw [if_neg (by simp [h1])] at ih2 ⊢
    rw [if_neg (by simp [h1])] at h2
    exact ih2 h2
  · intro copy p k' v rest hl
    dsimp only
    intro ih h
    rw [syncFields_cons_none hl] at h
    simp at h

theorem hasKey_of_mem (h : (k, v) ∈ l) : hasKey k l = true := by
  induction l with
  | nil => simp at h
  | cons e rest ih =>
      obtain ⟨k', v'⟩ := e
      rcases List.mem_cons.mp h with h2 | h2
      · obtain ⟨rfl, rfl⟩ := Prod.mk.injEq .. ▸ h2
        exact hasKey_cons.mpr (Or.inl rfl)
      · exact hasKey_cons.mpr (Or.inr (ih h2))

theorem nodupKeys_lookup_of_mem (hn : nodupKeys l = true) (h : (k, v) ∈ l) :
    lookupKey k l = some v := by
  induction l with
  | nil => simp at h
  | cons e rest ih =>
      obtain ⟨k', v'⟩ := e
      rw [nodupKeys] at hn
      rcases List.mem_cons.mp h with h2 | h2
      · obtain ⟨rfl, rfl⟩ := Prod.mk.injEq .. ▸ h2
        simp [lookupKey]
      · have hk : hasKey k' rest = false := by
          cases hx : hasKey k' rest <;> simp_all
        have hne : k' ≠ k := by
          rintro rfl
          rw [hasKey_of_mem h2] at hk
          exact absurd hk (by decide)
        rw [lookupKey, if_neg hne]
        exact ih (by simp_all) h2

/-- Merging a source against its own empty structure changes nothing,
reports nothing, and warns about nothing. -/
theorem sync_empty (s : JNode) (hwf : wf s = true) (q : String) :
    syncStructure s (createEmptyStructure s) q
      = ⟨createEmptyStructure s, false, [], []⟩ := by
  refine (wf.mutual_induct
    (motive_1 := fun s => wf s = true → ∀ q,
      syncStructure s (createEmptyStructure s) q
        = ⟨createEmptyStructure s, false, [], []⟩)
    (motive_2 := fun es => nodupKeys es = true → wfFields es = true → ∀ q copy,
      (∀ k sv, lookupKey k es = some sv →
        lookupKey k copy = some (createEmptyStructure sv)) →
      syncFields es copy q = ⟨copy, false, [], []⟩)
    (motive_3 := fun l => wfElems l = true → ∀ q i,
      syncElems l (emptyElems l) i q = ⟨emptyElems l, false, [], []⟩)
    ?_ ?_ ?_ ?_ ?_ ?_ ?_).1 s hwf q
  · intro l ih hw q
    show syncStructure (.arr l) (.arr (emptyElems l)) q = _
    rw [syncStructure_arr]
    rw [wf] at hw
    rw [ih hw q 0]
    rfl
  · intro es ih hw q
    rw [wf, Bool.and_eq_true] at hw
    show syncStructure (.obj es) (.obj (emptyFields es)) q = _
    rw [syncStructure_obj]
    rw [ih hw.1 hw.2 q (emptyFields es) (fun k sv hk => by
      rw [lookupKey_emptyFields, hk]; rfl)]
    rw [deleteMissing_all_present _ _ (fun kv hkv => by
      have h1 := hasKey_of_mem (k := kv.1) (v := kv.2) (by simpa using hkv)
      rw [hasKey_emptyFields] at h1
      exact h1)]
    rfl
  · intro t h1 h2 hw q
    cases t with
    | arr l => exact (h1 _ rfl).elim
    | obj es => exact (h2 _ rfl).elim
    | str s0 => rfl
    | num n => rfl
    | bool b => rfl
    | null => rfl
    | undef => rfl
  · intro _ q i
    rfl
  · intro x xs ih1 ih2 hw q i
    rw [wfElems, Bool.and_eq_true] at hw
    show syncElems (x :: xs) (createEmptyStructure x :: emptyElems xs) i q = _
    rw [syncElems_cons_cons, ih1 hw.1, ih2 hw.2 q (i + 1)]
    rfl
  · intro _ _ _ _ _
    rfl
  · intro k' v rest ih1 ih2 hn hw q copy hcopy
    rw [nodupKeys] at hn
    rw [wfFields, Bool.and_eq_true] at hw
    rw [Bool.and_eq_true, Bool.not_eq_true'] at hn
    have hl : lookupKey k' copy = some (createEmptyStructure v) :=
      hcopy k' v (by simp [lookupKey])
    rw [syncFields_cons_some hl]
    dsimp only
    rw [ih1 hw.1]
    simp only
    rw [if_neg (by simp)]
    rw [ih2 hn.2 hw.2 q copy (fun k sv hk => by
      have hne : k' ≠ k := by
        rintro rfl
        rw [hasKey_of_mem (lookupKey_mem hk)] at hn
        exact absurd hn.1 (by decide)
      exact hcopy k sv (by rw [lookupKey, if_neg hne]; exact hk))]
    rfl

/-! ## The object branch: lookup and key-set characterization -/

theorem syncFields_lookup_frame (hk : hasKey k ses = false) :
    ∀ copy p, lookupKey k (syncFields ses copy p).entries = lookupKey k copy := by
  induction ses with
  | nil => intro copy p; rfl
  | cons e rest ih =>
      intro copy p
      obtain ⟨k₀, sv₀⟩ := e
      have hne : k₀ ≠ k := by
        rintro rfl
        have hcon : hasKey k₀ ((k₀, sv₀) :: rest) = true := hasKey_cons.mpr (Or.inl rfl)
        rw [hcon] at hk
        exact absurd hk (by decide)
      have hkrest : hasKey k rest = false := by
        cases hx : hasKey k rest
        · rfl
        · have hcon : hasKey k ((k₀, sv₀) :: rest) = true := hasKey_cons.mpr (Or.inr hx)
          rw [hcon] at hk
          exact absurd hk (by decide)
      cases hl : lookupKey k₀ copy with
      | some tv =>
          rw [syncFields_cons_some hl]
          dsimp only
          rw [ih hkrest]
          by_cases hc : (syncStructure sv₀ tv (p ++ "." ++ k₀)).changesMade = true
          · rw [if_pos hc, lookupKey_setKey_ne hne]
          · rw [if_neg hc]
      | none =>
          rw [syncFields_cons_none hl]
          dsimp only
          rw [ih hkrest]
          cases hx : lookupKey k copy with
          | some w => exact lookupKey_append_of_some hx _
          | none => rw [lookupKey_append_of_none hx]; simp [lookupKey, hne]

theorem syncFields_lookup_some {k : String} {tv : JNode} :
    ∀ ses, nodupKeys ses = true → ∀ sv, lookupKey k ses = some sv →
      ∀ copy p, lookupKey k copy = some tv →
        lookupKey k (syncFields ses copy p).entries
          = some ((syncStructure sv tv (p ++ "." ++ k)).updatedNode) := by
  intro ses
  induction ses with
  | nil => intro _ sv hs; simp [lookupKey] at hs
  | cons e rest ih =>
      intro hn sv hs copy p ht
      obtain ⟨k₀, sv₀⟩ := e
      rw [nodupKeys, Bool.and_eq_true, Bool.not_eq_true'] at hn
      by_cases he : k₀ = k
      · subst he
        rw [lookupKey, if_pos rfl] at hs
        injection hs with hsv
        subst hsv
        rw [syncFields_cons_some ht]
        dsimp only
        rw [syncFields_lookup_frame hn.1]
        by_cases hc : (syncStructure sv₀ tv (p ++ "." ++ k₀)).changesMade = true
        · rw [if_pos hc, lookupKey_setKey_self]
        · rw [if_neg hc, ht, sync_noChange _ _ _ (Bool.not_eq_true _ ▸ hc)]
      · rw [lookupKey, if_neg he] at hs
        cases hl : lookupKey k₀ copy with
        | some tv₀ =>
            rw [syncFields_cons_some hl]
            dsimp only
            have ht' : lookupKey k
                (if (syncStructure sv₀ tv₀ (p ++ "." ++ k₀)).changesMade = true
                  then setKey k₀ (syncStructure sv₀ tv₀ (p ++ "." ++ k₀)).updatedNode copy
                  else copy) = some tv := by
              by_cases hc : (syncStructure sv₀ tv₀ (p ++ "." ++ k₀)).changesMade = true
              · rw [if_pos hc, lookupKey_setKey_ne he]; exact ht
              · rw [if_neg hc]; exact ht
            exact ih hn.2 sv hs _ p ht'
        | none =>
            rw [syncFields_cons_none hl]
            dsimp only
            exact ih hn.2 sv hs _ p (lookupKey_append_of_some ht _)

theorem syncFields_lookup_none {k : String} :
    ∀ ses, nodupKeys ses = true → ∀ sv, lookupKey k ses = some sv →
      ∀ copy p, lookupKey k copy = none →
        lookupKey k (syncFields ses copy p).entries
          = some (createEmptyStructure sv) := by
  intro ses
  induction ses with
  | nil => intro _ sv hs; simp [lookupKey] at hs
  | cons e rest ih =>
      intro hn sv hs copy p ht
      obtain ⟨k₀, sv₀⟩ := e
      rw [nodupKeys, Bool.and_eq_true, Bool.not_eq_true'] at hn
      by_cases he : k₀ = k
      · subst he
        rw [lookupKey, if_pos rfl] at hs
        injection hs with hsv
        subst hsv
        rw [syncFields_cons_none ht]
        dsimp only
        rw [syncFields_lookup_frame hn.1]
        rw [lookupKey_append_of_none ht]
        simp [lookupKey]
      · rw [lookupKey, if_neg he] at hs
        cases hl : lookupKey k₀ copy with
        | some tv₀ =>
            rw [syncFields_cons_some hl]
            dsimp only
            have ht' : lookupKey k
                (if (syncStructure sv₀ tv₀ (p ++ "." ++ k₀)).changesMade = true
                  then setKey k₀ (syncStructure sv₀ tv₀ (p ++ "." ++ k₀)).updatedNode copy
                  else copy) = none := by
              by_cases hc : (syncStructure sv₀ tv₀ (p ++ "." ++ k₀)).changesMade = true
              · rw [if_pos hc, lookupKey_setKey_ne he]; exact ht
              · rw [if_neg hc]; exact ht
            exact ih hn.2 sv hs _ p ht'
        | none =>
            rw [syncFields_cons_none hl]
            dsimp only
            have ht' : lookupKey k (copy ++ [(k₀, createEmptyStructure sv₀)]) = none := by
              rw [lookupKey_append_of_none ht]
              simp [lookupKey, he]
            exact ih hn.2 sv hs _ p ht'

theorem syncFields_hasKey (k : String) :
    ∀ ses copy p, hasKey k (syncFields ses copy p).entries = true
      ↔ (hasKey k copy = true ∨ hasKey k ses = true) := by
  intro ses
  induction ses with
  | nil =>
      intro copy p
      simp [syncFields, hasKey, lookupKey]
  | cons e rest ih =>
      intro copy p
      obtain ⟨k₀, sv₀⟩ := e
      cases hl : lookupKey k₀ copy with
      | some tv =>
          rw [syncFields_cons_some hl]
          dsimp only
          rw [ih]
          constructor
          · rintro (hc | hr)
            · by_cases hcc : (syncStructure sv₀ tv (p ++ "." ++ k₀)).changesMade = true
              · rw [if_pos hcc] at hc
                rcases hasKey_setKey.mp hc with h | h
                · exact Or.inl h
                · subst h
                  exact Or.inl (by simp [hasKey, hl])
              · rw [if_neg hcc] at hc
                exact Or.inl hc
            · exact Or.inr (hasKey_cons.mpr (Or.inr hr))
          · rintro (hc | hr)
            · left
              by_cases hcc : (syncStructure sv₀ tv (p ++ "." ++ k₀)).changesMade = true
              · rw [if_pos hcc]
                exact hasKey_setKey.mpr (Or.inl hc)
              · rw [if_neg hcc]; exact hc
            · rcases hasKey_cons.mp hr with h | h
              · subst h
                left
                by_cases hcc : (syncStructure sv₀ tv (p ++ "." ++ k₀)).changesMade = true
                · rw [if_pos hcc]
                  exact hasKey_setKey.mpr (Or.inr rfl)
                · rw [if_neg hcc]; simp [hasKey, hl]
              · exact Or.inr h
      | none =>
          rw [syncFields_cons_none hl]
          dsimp only
          rw [ih]
          rw [hasKey_append_single]
          constructor
          · rintro ((hc | hk0) | hr)
            · exact Or.inl hc
            · exact Or.inr (hasKey_cons.mpr (Or.inl hk0))
            · exact Or.inr (hasKey_cons.mpr (Or.inr hr))
          · rintro (hc | hr)
            · exact Or.inl (Or.inl hc)
            · rcases hasKey_cons.mp hr with h | h
              · exact Or.inl (Or.inr h)
              · exact Or.inr h

/-- Lookup of a source key in the full object-branch result (after the
deletion pass). -/
theorem merged_obj_lookup_some (hn : nodupKeys ses = true)
    (hs : lookupKey k ses = some sv) (ht : lookupKey k tes = some tv) (p : String) :
    lookupKey k (deleteMissing ses tes (syncFields ses tes p).entries).1
      = some ((syncStructure sv tv (p ++ "." ++ k)).updatedNode) := by
  rw [deleteMissing_lookup_of_src (hasKey_iff_lookup.mpr ⟨sv, hs⟩)]
  exact syncFields_lookup_some ses hn sv hs tes p ht

theorem merged_obj_lookup_none (hn : nodupKeys ses = true)
    (hs : lookupKey k ses = some sv) (ht : lookupKey k tes = none) (p : String) :
    lookupKey k (deleteMissing ses tes (syncFields ses tes p).entries).1
      = some (createEmptyStructure sv) := by
  rw [deleteMissing_lookup_of_src (hasKey_iff_lookup.mpr ⟨sv, hs⟩)]
  exact syncFields_lookup_none ses hn sv hs tes p ht

/-- The merged object's key set is exactly the source's key set. -/
theorem merged_obj_hasKey (hn : nodupKeys ses = true) (tes : List (String × JNode))
    (p : String) (k : String) :
    hasKey k (deleteMissing ses tes (syncFields ses tes p).entries).1 = hasKey k ses := by
  cases hx : hasKey k ses with
  | false =>
      cases hy : hasKey k tes with
      | false =>
          apply deleteMissing_hasKey_false
          cases hz : hasKey k (syncFields ses tes p).entries
          · rfl
          · rcases (syncFields_hasKey k ses tes p).mp hz with h | h
            · rw [hy] at h; exact h.symm
            · rw [hx] at h; exact h.symm
      | true => exact deleteMissing_del hx _ _ hy
  | true =>
      obtain ⟨sv, hs⟩ := hasKey_iff_lookup.mp hx
      cases ht : lookupKey k tes with
      | some tv => rw [hasKey, merged_obj_lookup_some hn hs ht p]; rfl
      | none => rw [hasKey, merged_obj_lookup_none hn hs ht p]; rfl

theorem lookupKey_append_single_ne (hne : k' ≠ k) (l : List (String × JNode))
    (w : JNode) : lookupKey k (l ++ [(k', w)]) = lookupKey k l := by
  cases hx : lookupKey k l with
  | some v => exact lookupKey_append_of_some hx _
  | none => rw [lookupKey_append_of_none hx]; simp [lookupKey, hne]

/-! ## Idempotence of the merge -/

/-- Re-merging a source against its own merge result is a no-op: same tree,
`changesMade = false`, nothing collected, nothing warned. -/
theorem sync_idem (s t : JNode) (hwf : wf s = true) (p q : String) :
    syncStructure s (syncStructure s t p).updatedNode q
      = ⟨(syncStructure s t p).updatedNode, false, [], []⟩ := by
  refine (syncStructure.mutual_induct
    (motive_1 := fun s t p => wf s = true → ∀ q,
      syncStructure s (syncStructure s t p).updatedNode q
        = ⟨(syncStructure s t p).updatedNode, false, [], []⟩)
    (motive_2 := fun ses copy p => nodupKeys ses = true → wfFields ses = true →
      ∀ q C,
        (∀ k sv tv, lookupKey k ses = some sv → lookupKey k copy = some tv →
          lookupKey k C = some ((syncStructure sv tv (p ++ "." ++ k)).updatedNode)) →
        (∀ k sv, lookupKey k ses = some sv → lookupKey k copy = none →
          lookupKey k C = some (createEmptyStructure sv)) →
        syncFields ses C q = ⟨C, false, [], []⟩)
    (motive_3 := fun ss ts i p => wfElems ss = true → ∀ j q,
      syncElems ss (syncElems ss ts i p).elems j q
        = ⟨(syncElems ss ts i p).elems, false, [], []⟩)
    ?_ ?_ ?_ ?_ ?_ ?_ ?_ ?_ ?_ ?_ ?_ ?_).1 s t p hwf q
  · intro p ss ts ih hwf q
    rw [wf] at hwf
    rw [syncStructure_arr]
    dsimp only
    rw [syncStructure_arr]
    rw [ih hwf 0 q]
  · intro p ses tes ih hwf q
    rw [wf, Bool.and_eq_true] at hwf
    rw [syncStructure_obj]
    dsimp only
    rw [syncStructure_obj]
    rw [ih hwf.1 hwf.2 q (deleteMissing ses tes (syncFields ses tes p).entries).1
      (fun k sv tv hs ht => merged_obj_lookup_some hwf.1 hs ht p)
      (fun k sv hs ht => merged_obj_lookup_none hwf.1 hs ht p)]
    dsimp only
    rw [deleteMissing_all_present _ _ (fun kv hkv => by
      have h1 : hasKey kv.1 (deleteMissing ses tes (syncFields ses tes p).entries).1 = true :=
        hasKey_of_mem (k := kv.1) (v := kv.2) (by simpa using hkv)
      rw [merged_obj_hasKey hwf.1 tes p kv.1] at h1
      exact h1)]
    rfl
  · intro p s t hne1 hne2 heq hwf q
    rw [syncStructure_other hne1 hne2 p, if_pos heq]
    dsimp only
    rw [syncStructure_other hne1 hne2 q, if_pos heq]
  · intro p s t hne1 hne2 hne hc hwf q
    rw [syncStructure_other hne1 hne2 p, if_neg hne, if_pos hc]
    dsimp only
    exact sync_empty s hwf q
  · intro p s t hne1 hne2 hne hc hwf q
    rw [syncStructure_other hne1 hne2 p, if_neg hne, if_neg hc]
    dsimp only
    rw [syncStructure_other hne1 hne2 q, if_neg hne, if_neg hc]
  · intro i p _ j q
    rfl
  · intro i p s ss' t ts' ih1 ih2 hwf j q
    rw [wfElems, Bool.and_eq_true] at hwf
    rw [syncElems_cons_cons]
    dsimp only
    rw [syncElems_cons_cons]
    rw [ih1 hwf.1, ih2 hwf.2 (j + 1) q]
    rfl
  · intro i p s ss' ih hwf j q
    rw [wfElems, Bool.and_eq_true] at hwf
    rw [syncElems_cons_nil]
    dsimp only
    rw [syncElems_cons_cons]
    rw [sync_empty s hwf.1, ih hwf.2 (j + 1) q]
    rfl
  · intro i p x xs _ j q
    rfl
  · intro copy p _ _ q C _ _
    rfl
  · intro copy p k' v rest tv hl
    dsimp only
    intro ih1 ih2 hn hw q C hCsome hCnone
    rw [nodupKeys, Bool.and_eq_true, Bool.not_eq_true'] at hn
    rw [wfFields, Bool.and_eq_true] at hw
    have hsk : lookupKey k' ((k', v) :: rest) = some v := by simp [lookupKey]
    have hC : lookupKey k' C
        = some ((syncStructure v tv (p ++ "." ++ k')).updatedNode) :=
      hCsome k' v tv hsk hl
    rw [syncFields_cons_some hC]
    dsimp only
    rw [ih1 hw.1]
    simp only
    rw [if_neg (by simp)]
    rw [ih2 hn.2 hw.2 q C
      (fun k sv tv2 hs ht => by
        have hne : k' ≠ k := by
          rintro rfl
          rw [hasKey_of_mem (lookupKey_mem hs)] at hn
          exact absurd hn.1 (by decide)
        have ht' : lookupKey k copy = some tv2 := by
          by_cases hcc : (syncStructure v tv (p ++ "." ++ k')).changesMade = true
          · rw [if_pos hcc, lookupKey_setKey_ne hne] at ht; exact ht
          · rw [if_neg hcc] at ht; exact ht
        exact hCsome k sv tv2 (by rw [lookupKey, if_neg hne]; exact hs) ht')
      (fun k sv hs ht => by
        have hne : k' ≠ k := by
          rintro rfl
          rw [hasKey_of_mem (lookupKey_mem hs)] at hn
          exact absurd hn.1 (by decide)
        have ht' : lookupKey k copy = none := by
          by_cases hcc : (syncStructure v tv (p ++ "." ++ k')).changesMade = true
          · rw [if_pos hcc, lookupKey_setKey_ne hne] at ht; exact ht
          · rw [if_neg hcc] at ht; exact ht
        exact hCnone k sv (by rw [lookupKey, if_neg hne]; exact hs) ht')]
    rfl
  · intro copy p k' v rest hl
    dsimp only
    intro ih hn hw q C hCsome hCnone
    rw [nodupKeys, Bool.and_eq_true, Bool.not_eq_true'] at hn
    rw [wfFields, Bool.and_eq_true] at hw
    have hsk : lookupKey k' ((k', v) :: rest) = some v := by simp [lookupKey]
    have hC : lookupKey k' C = some (createEmptyStructure v) := hCnone k' v hsk hl
    rw [syncFields_cons_some hC]
    dsimp only
    rw [sync_empty v hw.1]
    simp only
    rw [if_neg (by simp)]
    rw [ih hn.2 hw.2 q C
      (fun k sv tv2 hs ht => by
        have hne : k' ≠ k := by
          rintro rfl
          rw [hasKey_of_mem (lookupKey_mem hs)] at hn
          exact absurd hn.1 (by decide)
        have ht' : lookupKey k copy = some tv2 := by
          rw [lookupKey_append_single_ne hne] at ht
          exact ht
        exact hCsome k sv tv2 (by rw [lookupKey, if_neg hne]; exact hs) ht')
      (fun k sv hs ht => by
        have hne : k' ≠ k := by
          rintro rfl
          rw [hasKey_of_mem (lookupKey_mem hs)] at hn
          exact absurd hn.1 (by decide)
        have ht' : lookupKey k copy = none := by
          rw [lookupKey_append_single_ne hne] at ht
          exact ht
        exact hCnone k sv (by rw [lookupKey, if_neg hne]; exact hs) ht')]
    rfl

/-! ## The array branch: element characterization -/

theorem getSteps_obj_key (es : List (String × JNode)) (k : String) (rest : List Step) :
    getSteps (.obj es) (.key k :: rest)
      = (match lookupKey k es with
          | some v => getSteps v rest
          | none => none) := rfl

theorem getSteps_arr_idx (l : List JNode) (i : Nat) (rest : List Step) :
    getSteps (.arr l) (.idx i :: rest)
      = (match l[i]? with
          | some v => getSteps v rest
          | none => none) := rfl

theorem syncElems_length :
    ∀ ss ts i p, (syncElems ss ts i p).elems.length = ss.length := by
  intro ss
  induction ss with
  | nil =>
      intro ts i p
      cases ts <;> rfl
  | cons s ss' ih =>
      intro ts i p
      cases ts with
      | nil => rw [syncElems_cons_nil]; simp [ih]
      | cons t ts' => rw [syncElems_cons_cons]; simp [ih]

theorem syncElems_get_both :
    ∀ ss ts i p n sv tv, ss[n]? = some sv → ts[n]? = some tv →
      ((syncElems ss ts i p).elems)[n]?
        = some ((syncStructure sv tv
            (p ++ "[" ++ natRepr (i + n) ++ "]")).updatedNode) := by
  intro ss
  induction ss with
  | nil => intro ts i p n sv tv hs; simp at hs
  | cons s ss' ih =>
      intro ts i p n sv tv hs ht
      cases ts with
      | nil => simp at ht
      | cons t ts' =>
          rw [syncElems_cons_cons]
          cases n with
          | zero =>
              simp at hs ht
              subst hs; subst ht
              simp
          | succ n' =>
              simp at hs ht
              simp
              have hidx : i + (n' + 1) = (i + 1) + n' := by omega
              rw [hidx]
              exact ih ts' (i + 1) p n' sv tv hs ht

theorem syncElems_get_srcOnly :
    ∀ (ss ts : List JNode) (i : Nat) (p : String) (n : Nat) (sv : JNode),
      ss[n]? = some sv → ts[n]? = none →
      ((syncElems ss ts i p).elems)[n]? = some (createEmptyStructure sv) := by
  intro ss
  induction ss with
  | nil => intro ts i p n sv hs; simp at hs
  | cons s ss' ih =>
      intro ts i p n sv hs ht
      cases ts with
      | nil =>
          rw [syncElems_cons_nil]
          cases n with
          | zero => simp at hs; subst hs; simp
          | succ n' =>
              simp at hs
              simp
              exact ih [] (i + 1) p n' sv hs (by simp)
      | cons t ts' =>
          rw [syncElems_cons_cons]
          cases n with
          | zero => simp at ht
          | succ n' =>
              simp at hs ht
              simp
              exact ih ts' (i + 1) p n' sv hs (List.getElem?_eq_none ht)

/-! ## Value preservation along a common scalar path -/

theorem sync_value_preservation :
    ∀ (P : List Step) (S T : JNode) (ps : String) (u v : JNode),
      wf S = true → getSteps S P = some u → getSteps T P = some v →
      isContainerType (jtype u) = false → jtype u = jtype v →
      getSteps (syncStructure S T ps).updatedNode P = some v := by
  intro P
  induction P with
  | nil =>
      intro S T ps u v hwf hu hv hscalar htype
      rw [getSteps] at hu hv
      injection hu with hu
      injection hv with hv
      subst hu; subst hv
      have hne1 : ∀ ss ts, S = JNode.arr ss → T = JNode.arr ts → False := by
        rintro ss ts rfl _
        simp [jtype, isContainerType] at hscalar
      have hne2 : ∀ ses tes, S = JNode.obj ses → T = JNode.obj tes → False := by
        rintro ses tes rfl _
        simp [jtype, isContainerType] at hscalar
      rw [syncStructure_other hne1 hne2 ps, if_pos htype]
      rw [getSteps]
  | cons st rest ih =>
      intro S T ps u v hwf hu hv hscalar htype
      cases st with
      | key k =>
          cases S with
          | obj ses =>
              cases T with
              | obj tes =>
                  rw [getSteps_obj_key] at hu hv
                  cases hks : lookupKey k ses with
                  | none => rw [hks] at hu; simp at hu
                  | some sv =>
                      rw [hks] at hu
                      cases hkt : lookupKey k tes with
                      | none => rw [hkt] at hv; simp at hv
                      | some tv =>
                          rw [hkt] at hv
                          rw [wf, Bool.and_eq_true] at hwf
                          rw [syncStructure_obj]
                          dsimp only
                          rw [getSteps_obj_key,
                            merged_obj_lookup_some hwf.1 hks hkt ps]
                          exact ih sv tv _ u v (wfFields_lookup hwf.2 hks)
                            hu hv hscalar htype
              | null => simp [getSteps] at hv
              | undef => simp [getSteps] at hv
              | bool b => simp [getSteps] at hv
              | num n => simp [getSteps] at hv
              | str s2 => simp [getSteps] at hv
              | arr l => simp [getSteps] at hv
          | null => simp [getSteps] at hu
          | undef => simp [getSteps] at hu
          | bool b => simp [getSteps] at hu
          | num n => simp [getSteps] at hu
          | str s2 => simp [getSteps] at hu
          | arr l => simp [getSteps] at hu
      | idx i =>
          cases S with
          | arr ss =>
              cases T with
              | arr ts =>
                  rw [getSteps_arr_idx] at hu hv
                  cases hks : ss[i]? with
                  | none => rw [hks] at hu; simp at hu
                  | some sv =>
                      rw [hks] at hu
                      cases hkt : ts[i]? with
                      | none => rw [hkt] at hv; simp at hv
                      | some tv =>
                          rw [hkt] at hv
                          rw [wf] at hwf
                          rw [syncStructure_arr]
                          dsimp only
                          rw [getSteps_arr_idx,
                            syncElems_get_both ss ts 0 ps i sv tv hks hkt]
                          have hz : (0 : Nat) + i = i := by omega
                          rw [hz]
                          exact ih sv tv _ u v (wfElems_get hwf hks)
                            hu hv hscalar htype
              | null => simp [getSteps] at hv
              | undef => simp [getSteps] at hv
              | bool b => simp [getSteps] at hv
              | num n => simp [getSteps] at hv
              | str s2 => simp [getSteps] at hv
              | obj es => simp [getSteps] at hv
          | null => simp [getSteps] at hu
          | undef => simp [getSteps] at hu
          | bool b => simp [getSteps] at hu
          | num n => simp [getSteps] at hu
          | str s2 => simp [getSteps] at hu
          | obj es => simp [getSteps] at hu

/-! ## Claims C2, C3, C5, C6 -/

/-- Claim C2: for every source `S` and target `T` (well-formed JSON trees)
and every path `P` holding scalar leaves of the same primitive type in
both, the merged tree holds `T`'s original value at `P`: the diff step
leaves it unchanged. -/
theorem claim_C2 (S T : JNode) (P : List Step) (u v : JNode)
    (hwf : wf S = true)
    (hu : getSteps S P = some u) (hv : getSteps T P = some v)
    (hleaf : isContainerType (jtype u) = false) (htype : jtype u = jtype v) :
    getSteps (syncStructure S T "root").updatedNode P = some v :=
  sync_value_preservation P S T "root" u v hwf hu hv hleaf htype

/-- Witness for C2: `S = {"a": {"b": 1}}`, `T = {"a": {"b": 2}}`,
`P = .a.b`. -/
theorem claim_C2_witness :
    wf (JNode.obj [("a", .obj [("b", .num 1)])]) = true ∧
    getSteps (JNode.obj [("a", .obj [("b", .num 1)])]) [.key "a", .key "b"]
      = some (.num 1) ∧
    getSteps (JNode.obj [("a", .obj [("b", .num 2)])]) [.key "a", .key "b"]
      = some (.num 2) ∧
    isContainerType (jtype (JNode.num 1)) = false ∧
    jtype (JNode.num 1) = jtype (JNode.num 2) ∧
    getSteps (syncStructure (JNode.obj [("a", .obj [("b", .num 1)])])
        (JNode.obj [("a", .obj [("b", .num 2)])]) "root").updatedNode
        [.key "a", .key "b"]
      = some (.num 2) :=
  ⟨by decide, by decide, by decide, by decide, by decide,
    claim_C2 (JNode.obj [("a", .obj [("b", .num 1)])])
      (JNode.obj [("a", .obj [("b", .num 2)])]) [.key "a", .key "b"]
      (.num 1) (.num 2) (by decide) (by decide) (by decide) (by decide) (by decide)⟩

/-- Claim C3: the merge is idempotent.  Merging `S` against
`merge(S, T).mergedNode` returns the same merged tree, reports
`changed = false`, and appends nothing to the added-node collector (and
logs no warning). -/
theorem claim_C3 (S T : JNode) (hwf : wf S = true) :
    syncStructure S (syncStructure S T "root").updatedNode "root"
      = { updatedNode := (syncStructure S T "root").updatedNode,
          changesMade := false, added := [], warnings := [] } :=
  sync_idem S T hwf "root" "root"

/-- Witness for C3 at `S = {"a": "x", "b": [1, "s"]}`,
`T = {"a": {"z": 1}, "c": true}`. -/
theorem claim_C3_witness :
    wf (JNode.obj [("a", .str "x"), ("b", .arr [.num 1, .str "s"])]) = true ∧
    syncStructure (JNode.obj [("a", .str "x"), ("b", .arr [.num 1, .str "s"])])
        (syncStructure (JNode.obj [("a", .str "x"), ("b", .arr [.num 1, .str "s"])])
          (JNode.obj [("a", .obj [("z", .num 1)]), ("c", .bool true)])
          "root").updatedNode "root"
      = { updatedNode := (syncStructure
            (JNode.obj [("a", .str "x"), ("b", .arr [.num 1, .str "s"])])
            (JNode.obj [("a", .obj [("z", .num 1)]), ("c", .bool true)])
            "root").updatedNode,
          changesMade := false, added := [], warnings := [] } :=
  ⟨by decide,
    claim_C3 (JNode.obj [("a", .str "x"), ("b", .arr [.num 1, .str "s"])])
      (JNode.obj [("a", .obj [("z", .num 1)]), ("c", .bool true)]) (by decide)⟩

/-- Claim C5, counterexample: on source `{"a": {"x": 1}}` and target
`{"a": "oops"}` the merged tree is not `{"a": {"x": ""}}` as the claim
requires — the inner leaf stays the number 1, because
`createEmptyStructure` blanks only strings. -/
theorem claim_C5_counterexample :
    (syncStructure (.obj [("a", .obj [("x", .num 1)])])
        (.obj [("a", .str "oops")]) "root").updatedNode
      ≠ .obj [("a", .obj [("x", .str "")])] := by decide

/-- Claim C5 (amended): merging source `{"a": {"x": 1}}` against target
`{"a": "oops"}` produces the merged tree `{"a": {"x": 1}}` (the empty
structure blanks only string leaves; numbers are kept), the added-list
`[{path: "root.a", sourceValue: {"x": 1}}]`, and one structural-mismatch
warning, at `root.a`. -/
theorem claim_C5 :
    syncStructure (.obj [("a", .obj [("x", .num 1)])])
        (.obj [("a", .str "oops")]) "root"
      = { updatedNode := .obj [("a", .obj [("x", .num 1)])],
          changesMade := true,
          added := [{ path := "root.a", sourceValue := .obj [("x", .num 1)] }],
          warnings := ["root.a"] } := by decide

/-- Claim C6: when source and target hold scalars of two distinct types
drawn from string/number/boolean/null, the merge keeps the target's value
unchanged, reports `changed = false`, and appends neither records nor
warnings. -/
theorem claim_C6 (s t : JNode) (p : String)
    (hs : isPrimScalar (jtype s) = true) (ht : isPrimScalar (jtype t) = true)
    (hne : jtype s ≠ jtype t) :
    syncStructure s t p = ⟨t, false, [], []⟩ := by
  have hne1 : ∀ ss ts, s = JNode.arr ss → t = JNode.arr ts → False := by
    rintro ss ts rfl _
    simp [jtype, isPrimScalar] at hs
  have hne2 : ∀ ses tes, s = JNode.obj ses → t = JNode.obj tes → False := by
    rintro ses tes rfl _
    simp [jtype, isPrimScalar] at hs
  rw [syncStructure_other hne1 hne2 p, if_neg hne, if_neg]
  simp only [Bool.or_eq_true, not_or, Bool.not_eq_true]
  constructor
  · cases hx : jtype s <;> simp_all [isPrimScalar, isContainerType]
  · cases hx : jtype t <;> simp_all [isPrimScalar, isContainerType]

/-- Witness for C6 at source `1`, target `"x"`. -/
theorem claim_C6_witness :
    isPrimScalar (jtype (.num 1)) = true ∧
    isPrimScalar (jtype (.str "x")) = true ∧
    jtype (.num 1) ≠ jtype (.str "x") ∧
    syncStructure (.num 1) (.str "x") "root" = ⟨.str "x", false, [], []⟩ :=
  ⟨by decide, by decide, by decide,
    claim_C6 (.num 1) (.str "x") "root" (by decide) (by decide) (by decide)⟩

/-! ## Convergence: the merged tree's container shape matches the source -/

/-- The four possible top-level shapes of a merge step: both arrays, both
objects, target kept (a scalar), or wholesale replacement by the source's
empty structure. -/
theorem syncStructure_updated_cases (S T : JNode) (ps : String) :
    (∃ ss ts, S = JNode.arr ss ∧ T = JNode.arr ts) ∨
    (∃ ses tes, S = JNode.obj ses ∧ T = JNode.obj tes) ∨
    ((syncStructure S T ps).updatedNode = T ∧ isContainerType (jtype T) = false) ∨
    ((syncStructure S T ps).updatedNode = createEmptyStructure S) := by
  cases S <;> cases T <;>
    first
      | exact Or.inl ⟨_, _, rfl, rfl⟩
      | exact Or.inr (Or.inl ⟨_, _, rfl, rfl⟩)
      | exact Or.inr (Or.inr (Or.inl ⟨rfl, rfl⟩))
      | exact Or.inr (Or.inr (Or.inr rfl))

theorem getSteps_scalar_cons (t : JNode) (hc : isContainerType (jtype t) = false)
    (st : Step) (rest : List Step) : getSteps t (st :: rest) = none := by
  cases t <;> cases st <;> first | rfl | simp [jtype, isContainerType] at hc

theorem getSteps_nil (v : JNode) : getSteps v [] = some v := by
  cases v <;> rfl

theorem getSteps_arr_key (l : List JNode) (k : String) (rest : List Step) :
    getSteps (.arr l) (.key k :: rest) = none := rfl

theorem getSteps_obj_idx (es : List (String × JNode)) (i : Nat) (rest : List Step) :
    getSteps (.obj es) (.idx i :: rest) = none := rfl

/-- Looking anything up inside an empty structure lands on the emptied
image of the same position of the original, whose container shape it
shares. -/
theorem shape_empty (s : JNode) (P : List Step) (v : JNode)
    (h : getSteps (createEmptyStructure s) P = some v) :
    shapeOK v (getSteps s P) := by
  rw [getSteps_createEmpty] at h
  cases hw : getSteps s P with
  | none => rw [hw] at h; simp at h
  | some w =>
      rw [hw] at h
      simp at h
      subst h
      exact shapeOK_createEmpty w

theorem sync_convergence :
    ∀ (P : List Step) (S T : JNode) (ps : String) (v : JNode),
      wf S = true →
      getSteps (syncStructure S T ps).updatedNode P = some v →
      shapeOK v (getSteps S P) := by
  intro P
  induction P with
  | nil =>
      intro S T ps v hwf hv
      rw [getSteps] at hv
      injection hv with hv
      subst hv
      rcases syncStructure_updated_cases S T ps with
        ⟨ss, ts, rfl, rfl⟩ | ⟨ses, tes, rfl, rfl⟩ | ⟨hM, hTnc⟩ | hM
      · rw [syncStructure_arr]
        exact ⟨ss, rfl, syncElems_length ss ts 0 ps⟩
      · rw [wf, Bool.and_eq_true] at hwf
        rw [syncStructure_obj]
        exact ⟨ses, rfl, fun k => by rw [merged_obj_hasKey hwf.1 tes ps k]⟩
      · rw [hM]
        cases T <;> first | exact trivial | simp [jtype, isContainerType] at hTnc
      · rw [hM]
        exact shape_empty S [] (createEmptyStructure S) (getSteps_nil _)
  | cons st rest ih =>
      intro S T ps v hwf hv
      rcases syncStructure_updated_cases S T ps with
        ⟨ss, ts, rfl, rfl⟩ | ⟨ses, tes, rfl, rfl⟩ | ⟨hM, hTnc⟩ | hM
      · cases st with
        | key k =>
            rw [syncStructure_arr] at hv
            dsimp only at hv
            rw [getSteps_arr_key] at hv
            simp at hv
        | idx i =>
            rw [syncStructure_arr] at hv
            dsimp only at hv
            rw [getSteps_arr_idx] at hv
            cases he : ((syncElems ss ts 0 ps).elems)[i]? with
            | none => rw [he] at hv; simp at hv
            | some m =>
                rw [he] at hv
                have hlen : i < ss.length := by
                  have := List.getElem?_eq_some.mp he
                  obtain ⟨hlt, _⟩ := this
                  rwa [syncElems_length] at hlt
                have hs : ss[i]? = some ss[i] := List.getElem?_eq_getElem hlen
                rw [wf] at hwf
                rw [getSteps_arr_idx, hs]
                cases ht : ts[i]? with
                | some tv =>
                    rw [syncElems_get_both ss ts 0 ps i ss[i] tv hs ht] at he
                    injection he with he
                    subst he
                    have hz : (0 : Nat) + i = i := by omega
                    rw [hz] at hv
                    exact ih ss[i] tv _ v (wfElems_get hwf hs) hv
                | none =>
                    rw [syncElems_get_srcOnly ss ts 0 ps i ss[i] hs ht] at he
                    injection he with he
                    subst he
                    exact shape_empty ss[i] rest v hv
      · cases st with
        | idx i =>
            rw [syncStructure_obj] at hv
            dsimp only at hv
            rw [getSteps_obj_idx] at hv
            simp at hv
        | key k =>
            rw [syncStructure_obj] at hv
            dsimp only at hv
            rw [getSteps_obj_key] at hv
            rw [wf, Bool.and_eq_true] at hwf
            cases he : lookupKey k
                (deleteMissing ses tes (syncFields ses tes ps).entries).1 with
            | none => rw [he] at hv; simp at hv
            | some m =>
                rw [he] at hv
                have hsk : hasKey k ses = true := by
                  have h1 : hasKey k
                      (deleteMissing ses tes (syncFields ses tes ps).entries).1
                      = true := by rw [hasKey, he]; rfl
                  rwa [merged_obj_hasKey hwf.1 tes ps k] at h1
                obtain ⟨sv, hs⟩ := hasKey_iff_lookup.mp hsk
                rw [getSteps_obj_key, hs]
                cases ht : lookupKey k tes with
                | some tv =>
                    rw [merged_obj_lookup_some hwf.1 hs ht ps] at he
                    injection he with he
                    subst he
                    exact ih sv tv _ v (wfFields_lookup hwf.2 hs) hv
                | none =>
                    rw [merged_obj_lookup_none hwf.1 hs ht ps] at he
                    injection he with he
                    subst he
                    exact shape_empty sv rest v hv
      · rw [hM] at hv
        rw [getSteps_scalar_cons T hTnc st rest] at hv
        simp at hv
      · rw [hM] at hv
        exact shape_empty S (st :: rest) v hv

/-- Claim C1: convergence.  At every path reachable in the merged tree,
an object there has exactly the source's key set at that path, and an
array there has exactly the source's length at that path. -/
theorem claim_C1 (S T : JNode) (hwf : wf S = true) (P : List Step) (v : JNode)
    (hv : getSteps (syncStructure S T "root").updatedNode P = some v) :
    shapeOK v (getSteps S P) :=
  sync_convergence P S T "root" v hwf hv

/-- Witness for C1: `S = {"a": 1, "b": 2}`, `T = {"a": "x"}`, at the root
path; the merged tree is the object `{"a": "x", "b": 2}` and its key set
matches `S`'s. -/
theorem claim_C1_witness :
    wf (JNode.obj [("a", .num 1), ("b", .num 2)]) = true ∧
    getSteps (syncStructure (JNode.obj [("a", .num 1), ("b", .num 2)])
        (JNode.obj [("a", .str "x")]) "root").updatedNode []
      = some (.obj [("a", .str "x"), ("b", .num 2)]) ∧
    shapeOK (.obj [("a", .str "x"), ("b", .num 2)])
      (getSteps (JNode.obj [("a", .num 1), ("b", .num 2)]) []) :=
  ⟨by decide, by decide,
    claim_C1 (JNode.obj [("a", .num 1), ("b", .num 2)])
      (JNode.obj [("a", .str "x")]) (by decide) [] _ (by decide)⟩

/-! ## Claim C8 — fail-closed batch translation -/

theorem processBatches_none (tb : List String → List String) :
    ∀ bs, (∃ b ∈ bs, (tb b).length ≠ b.length) → processBatches bs tb = none := by
  intro bs
  induction bs with
  | nil => rintro ⟨b, hb, _⟩; simp at hb
  | cons b rest ih =>
      rintro ⟨b', hb', hlen⟩
      by_cases hc : (tb b).length ≠ b.length
      · simp only [processBatches]
        rw [if_pos hc]
      · rcases List.mem_cons.mp hb' with rfl | hmem
        · exact absurd hlen hc
        · simp only [processBatches]
          rw [if_neg hc, ih ⟨b', hmem, hlen⟩]

/-- Claim C8: if any batch sent to the injected `translateBatch` capability
comes back with a length different from that batch's input length, the
whole fragment translation returns the original subtree unchanged. -/
theorem claim_C8 (frag : JNode) (tb : List String → List String)
    (h : ∃ b ∈ toBatches (collectStrings frag), (tb b).length ≠ b.length) :
    translateStructureInBatches frag tb = frag := by
  have hnone := processBatches_none tb (toBatches (collectStrings frag)) h
  by_cases he : (collectStrings frag).isEmpty = true
  · simp [translateStructureInBatches, he]
  · simp [translateStructureInBatches, he, hnone]

/-- Witness for C8: a one-string fragment and a capability that returns an
empty list. -/
theorem claim_C8_witness :
    (∃ b ∈ toBatches (collectStrings (.str "hello")),
      ((fun _ => ([] : List String)) b).length ≠ b.length) ∧
    translateStructureInBatches (.str "hello") (fun _ => []) = .str "hello" :=
  ⟨⟨["hello"], by decide, by decide⟩,
    claim_C8 (.str "hello") (fun _ => []) ⟨["hello"], by decide, by decide⟩⟩

/-! ## Claim C9 — placeholder comparison -/

theorem zip_no_mismatch :
    ∀ a b : List String, a.length = b.length →
      (((a.zip b).any (fun q => q.1 ≠ q.2)) = false ↔ a = b) := by
  intro a
  induction a with
  | nil =>
      intro b h
      cases b with
      | nil => simp
      | cons y ys => simp at h
  | cons x xs ih =>
      intro b h
      cases b with
      | nil => simp at h
      | cons y ys =>
          simp only [List.length_cons, Nat.add_right_cancel_iff] at h
          simp only [List.zip_cons_cons, List.any_cons, Bool.or_eq_false_iff]
          rw [ih ys h]
          constructor
          · rintro ⟨h1, h2⟩
            simp at h1
            rw [h1, h2]
          · rintro h12
            injection h12 with h1 h2
            exact ⟨by simp [h1], h2⟩

/-- Claim C9: `comparePlaceholders` returns true exactly when the source
text has no recognized placeholders, or the sorted-unique placeholder lists
of the two texts coincide (same length, same elements); and the two
concrete examples of the spec. -/
theorem claim_C9 :
    (∀ s c, comparePlaceholders s c = true ↔
      (extractPlaceholders s = [] ∨
        extractPlaceholders s = extractPlaceholders c)) ∧
    comparePlaceholders "Hello {{name}}" "Bonjour {{name}}" = true ∧
    comparePlaceholders "Hello {{name}}" "Bonjour" = false := by
  refine ⟨?_, by decide, by decide⟩
  intro s c
  unfold comparePlaceholders
  by_cases h0 : (extractPlaceholders s).length = 0
  · rw [if_pos h0]
    simp [List.length_eq_zero.mp h0]
  · rw [if_neg h0]
    by_cases h1 : (extractPlaceholders s).length ≠ (extractPlaceholders c).length
    · rw [if_pos h1]
      constructor
      · intro hf; exact absurd hf (by decide)
      · rintro (he | he)
        · exact absurd (by rw [he]; rfl) h0
        · exact absurd (by rw [he]) h1
    · rw [if_neg h1]
      push_neg at h1
      rw [Bool.not_eq_true', zip_no_mismatch _ _ h1]
      constructor
      · exact Or.inr
      · rintro (he | he)
        · exact absurd (by rw [he]; rfl) h0
        · exact he

/-! ## Where the collected records live in the merged tree -/

/-- Every record of a merge call is addressed by a structural step list
`st` extending the call's path; the merged tree holds
`createEmptyStructure` of the record's source value at `st`; and when the
source tree's keys are clean, so are the steps of `st`. -/
theorem sync_added_located :
    ∀ (s t : JNode) (p : String), wf s = true →
      ∀ r ∈ (syncStructure s t p).added, ∃ st : List Step,
        r.path = p ++ renderSteps st ∧
        getSteps (syncStructure s t p).updatedNode st
          = some (createEmptyStructure r.sourceValue) ∧
        (cleanNode s = true → ∀ stp ∈ st, stepClean stp = true) := by
  refine (syncStructure.mutual_induct
    (motive_1 := fun s t p => wf s = true →
      ∀ r ∈ (syncStructure s t p).added, ∃ st : List Step,
        r.path = p ++ renderSteps st ∧
        getSteps (syncStructure s t p).updatedNode st
          = some (createEmptyStructure r.sourceValue) ∧
        (cleanNode s = true → ∀ stp ∈ st, stepClean stp = true))
    (motive_2 := fun ses copy p => nodupKeys ses = true → wfFields ses = true →
      ∀ r ∈ (syncFields ses copy p).added,
        ∃ (k : String) (sv : JNode) (st : List Step),
          lookupKey k ses = some sv ∧
          r.path = p ++ "." ++ k ++ renderSteps st ∧
          (∃ m, lookupKey k (syncFields ses copy p).entries = some m ∧
            getSteps m st = some (createEmptyStructure r.sourceValue)) ∧
          (cleanFields ses = true →
            cleanKey k = true ∧ ∀ stp ∈ st, stepClean stp = true))
    (motive_3 := fun ss ts i p => wfElems ss = true →
      ∀ r ∈ (syncElems ss ts i p).added, ∃ (n : Nat) (st : List Step),
        r.path = p ++ "[" ++ natRepr (i + n) ++ "]" ++ renderSteps st ∧
        (∃ m, ((syncElems ss ts i p).elems)[n]? = some m ∧
          getSteps m st = some (createEmptyStructure r.sourceValue)) ∧
        (cleanElems ss = true → ∀ stp ∈ st, stepClean stp = true))
    ?_ ?_ ?_ ?_ ?_ ?_ ?_ ?_ ?_ ?_ ?_ ?_).1
  · intro p ss ts ih hwf r hr
    rw [syncStructure_arr] at hr ⊢
    dsimp only at hr ⊢
    rw [wf] at hwf
    obtain ⟨n, st, hpath, ⟨m, hm, hg⟩, hclean⟩ := ih hwf r hr
    refine ⟨.idx n :: st, ?_, ?_, ?_⟩
    · rw [hpath]
      simp [renderSteps, renderStep, String.append_assoc]
    · rw [getSteps_arr_idx, hm]
      exact hg
    · intro hcl stp hstp
      rw [cleanNode] at hcl
      rcases List.mem_cons.mp hstp with rfl | hmem
      · rfl
      · exact hclean hcl stp hmem
  · intro p ses tes ih hwf r hr
    rw [syncStructure_obj] at hr ⊢
    dsimp only at hr ⊢
    rw [wf, Bool.and_eq_true] at hwf
    obtain ⟨k, sv, st, hks, hpath, ⟨m, hm, hg⟩, hclean⟩ := ih hwf.1 hwf.2 r hr
    refine ⟨.key k :: st, ?_, ?_, ?_⟩
    · rw [hpath]
      simp [renderSteps, renderStep, String.append_assoc]
    · rw [getSteps_obj_key,
        deleteMissing_lookup_of_src (hasKey_iff_lookup.mpr ⟨sv, hks⟩), hm]
      exact hg
    · intro hcl stp hstp
      rw [cleanNode] at hcl
      obtain ⟨hck, hcst⟩ := hclean hcl
      rcases List.mem_cons.mp hstp with rfl | hmem
      · exact hck
      · exact hcst stp hmem
  · intro p s t hne1 hne2 heq hwf r hr
    rw [syncStructure_other hne1 hne2 p, if_pos heq] at hr
    simp at hr
  · intro p s t hne1 hne2 hne hc hwf r hr
    rw [syncStructure_other hne1 hne2 p, if_neg hne, if_pos hc] at hr ⊢
    dsimp only at hr ⊢
    rcases List.mem_singleton.mp hr with rfl
    refine ⟨[], ?_, ?_, ?_⟩
    · rw [renderSteps, String.append_empty]
    · rw [getSteps_nil]
    · intro _ stp hstp
      simp at hstp
  · intro p s t hne1 hne2 hne hc hwf r hr
    rw [syncStructure_other hne1 hne2 p, if_neg hne, if_neg hc] at hr
    simp at hr
  · intro i p hwf r hr
    simp [syncElems] at hr
  · intro i p s ss' t ts' ih1 ih2 hwf r hr
    rw [wfElems, Bool.and_eq_true] at hwf
    rw [syncElems_cons_cons] at hr ⊢
    dsimp only at hr ⊢
    rcases List.mem_append.mp hr with hr1 | hr2
    · obtain ⟨st, hpath, hg, hclean⟩ := ih1 hwf.1 r hr1
      refine ⟨0, st, ?_, ⟨(syncStructure s t (p ++ "[" ++ natRepr i ++ "]")).updatedNode,
        by simp, hg⟩, ?_⟩
      · rw [hpath]
        have hz : i + 0 = i := by omega
        rw [hz]
      · intro hcl stp hstp
        rw [cleanElems, Bool.and_eq_true] at hcl
        exact hclean hcl.1 stp hstp
    · obtain ⟨n, st, hpath, ⟨m, hm, hg⟩, hclean⟩ := ih2 hwf.2 r hr2
      refine ⟨n + 1, st, ?_, ⟨m, by simpa using hm, hg⟩, ?_⟩
      · rw [hpath]
        have hz : i + (n + 1) = i + 1 + n := by omega
        rw [hz]
      · intro hcl stp hstp
        rw [cleanElems, Bool.and_eq_true] at hcl
        exact hclean hcl.2 stp hstp
  · intro i p s ss' ih hwf r hr
    rw [wfElems, Bool.and_eq_true] at hwf
    rw [syncElems_cons_nil] at hr ⊢
    dsimp only at hr ⊢
    rcases List.mem_cons.mp hr with rfl | hr2
    · refine ⟨0, [], ?_, ⟨createEmptyStructure s, by simp, by rw [getSteps_nil]⟩, ?_⟩
      · have hz : i + 0 = i := by omega
        rw [hz, renderSteps, String.append_empty]
      · intro _ stp hstp
        simp at hstp
    · obtain ⟨n, st, hpath, ⟨m, hm, hg⟩, hclean⟩ := ih hwf.2 r hr2
      refine ⟨n + 1, st, ?_, ⟨m, by simpa using hm, hg⟩, ?_⟩
      · rw [hpath]
        have hz : i + (n + 1) = i + 1 + n := by omega
        rw [hz]
      · intro hcl stp hstp
        rw [cleanElems, Bool.and_eq_true] at hcl
        exact hclean hcl.2 stp hstp
  · intro i p x xs hwf r hr
    simp [syncElems] at hr
  · intro copy p hn hw r hr
    simp [syncFields] at hr
  · intro copy p k' v rest tv hl
    dsimp only
    intro ih1 ih2 hn hw r hr
    rw [nodupKeys, Bool.and_eq_true, Bool.not_eq_true'] at hn
    rw [wfFields, Bool.and_eq_true] at hw
    rw [syncFields_cons_some hl] at hr ⊢
    dsimp only at hr ⊢
    rcases List.mem_append.mp hr with hr1 | hr2
    · obtain ⟨st, hpath, hg, hclean⟩ := ih1 hw.1 r hr1
      refine ⟨k', v, st, by simp [lookupKey], hpath, ?_, ?_⟩
      · refine ⟨(syncStructure v tv (p ++ "." ++ k')).updatedNode, ?_, hg⟩
        rw [syncFields_lookup_frame hn.1]
        by_cases hcc : (syncStructure v tv (p ++ "." ++ k')).changesMade = true
        · rw [if_pos hcc, lookupKey_setKey_self]
        · rw [if_neg hcc, hl, sync_noChange _ _ _ (Bool.not_eq_true _ ▸ hcc)]
      · intro hcl
        rw [cleanFields] at hcl
        simp only [Bool.and_eq_true] at hcl
        exact ⟨hcl.1.1, hclean hcl.1.2⟩
    · obtain ⟨k, sv, st, hks, hpath, ⟨m, hm, hg⟩, hclean⟩ := ih2 hn.2 hw.2 r hr2
      have hne : k' ≠ k := by
        rintro rfl
        rw [hasKey_of_mem (lookupKey_mem hks)] at hn
        exact absurd hn.1 (by decide)
      refine ⟨k, sv, st, by rw [lookupKey, if_neg hne]; exact hks, hpath,
        ⟨m, hm, hg⟩, ?_⟩
      intro hcl
      rw [cleanFields] at hcl
      simp only [Bool.and_eq_true] at hcl
      exact hclean hcl.2
  · intro copy p k' v rest hl
    dsimp only
    intro ih hn hw r hr
    rw [nodupKeys, Bool.and_eq_true, Bool.not_eq_true'] at hn
    rw [wfFields, Bool.and_eq_true] at hw
    rw [syncFields_cons_none hl] at hr ⊢
    dsimp only at hr ⊢
    rcases List.mem_cons.mp hr with rfl | hr2
    · refine ⟨k', v, [], by simp [lookupKey], ?_, ?_, ?_⟩
      · rw [renderSteps, String.append_empty]
      · refine ⟨createEmptyStructure v, ?_, by rw [getSteps_nil]⟩
        rw [syncFields_lookup_frame hn.1, lookupKey_append_of_none hl]
        simp [lookupKey]
      · intro hcl
        rw [cleanFields] at hcl
        simp only [Bool.and_eq_true] at hcl
        exact ⟨hcl.1.1, by intro stp hstp; simp at hstp⟩
    · obtain ⟨k, sv, st, hks, hpath, ⟨m, hm, hg⟩, hclean⟩ := ih hn.2 hw.2 r hr2
      have hne : k' ≠ k := by
        rintro rfl
        rw [hasKey_of_mem (lookupKey_mem hks)] at hn
        exact absurd hn.1 (by decide)
      refine ⟨k, sv, st, by rw [lookupKey, if_neg hne]; exact hks, hpath,
        ⟨m, hm, hg⟩, ?_⟩
      intro hcl
      rw [cleanFields] at hcl
      simp only [Bool.and_eq_true] at hcl
      exact hclean hcl.2

/-! ## The split scanner on rendered paths -/

theorem scanAux_nil (f : Nat) (acc : List Char) :
    scanAux f [] acc = [acc.reverse] := by
  cases f <;> rfl

theorem scanAux_succ (f : Nat) (c : Char) (rest acc : List Char) :
    scanAux (f + 1) (c :: rest) acc =
      if c = '.' then acc.reverse :: scanAux f rest []
      else if c = '[' then
        match spanDigits rest with
        | (d :: ds, ']' :: rest') =>
            acc.reverse :: (d :: ds) :: scanAux f rest' []
        | _ => scanAux f rest ('[' :: acc)
      else scanAux f rest (c :: acc) := rfl

theorem scanAux_succ_dot (f : Nat) (rest acc : List Char) :
    scanAux (f + 1) ('.' :: rest) acc = acc.reverse :: scanAux f rest [] := by
  rw [scanAux_succ, if_pos rfl]

theorem spanDigits_exact :
    ∀ (ds : List Char), (∀ c ∈ ds, c.isDigit = true) →
      ∀ (c : Char), c.isDigit = false → ∀ (tl : List Char),
        spanDigits (ds ++ c :: tl) = (ds, c :: tl) := by
  intro ds
  induction ds with
  | nil =>
      intro _ c hc tl
      simp [spanDigits, hc]
  | cons d ds' ih =>
      intro h c hc tl
      have hd := h d (List.mem_cons_self d ds')
      have hrec := ih (fun x hx => h x (List.mem_cons_of_mem d hx)) c hc tl
      simp only [List.cons_append, spanDigits, hd, if_true, List.append_eq, hrec]

theorem scanAux_succ_bracket (f : Nat) (D rest' acc : List Char) (hD : D ≠ [])
    (hdig : ∀ c ∈ D, c.isDigit = true) :
    scanAux (f + 1) ('[' :: (D ++ ']' :: rest')) acc
      = acc.reverse :: D :: scanAux f rest' [] := by
  obtain ⟨d, ds, rfl⟩ := List.exists_cons_of_ne_nil hD
  rw [scanAux_succ, if_neg (by decide), if_pos rfl,
    spanDigits_exact _ hdig ']' (by decide)]
  rfl

/-- Clean characters (neither `.` nor `[`) are chewed one per fuel unit
into the accumulator. -/
theorem scanAux_chew :
    ∀ (kc : List Char), (∀ c ∈ kc, c ≠ '.' ∧ c ≠ '[') →
      ∀ (n : Nat) (tail acc : List Char),
        scanAux (kc.length + n) (kc ++ tail) acc
          = scanAux n tail (kc.reverse ++ acc) := by
  intro kc
  induction kc with
  | nil =>
      intro _ n tail acc
      simp
  | cons c cs ih =>
      intro h n tail acc
      have hc := h c (List.mem_cons_self c cs)
      have hlen : (c :: cs).length + n = (cs.length + n) + 1 := by
        simp only [List.length_cons]
        omega
      rw [hlen, List.cons_append, scanAux_succ, if_neg hc.1, if_neg hc.2,
        ih (fun x hx => h x (List.mem_cons_of_mem c hx)) n tail (c :: acc)]
      simp [List.append_assoc]

theorem arrSet_get_self :
    ∀ (l : List JNode) (n : Nat) (X : JNode), (arrSet l n X)[n]? = some X := by
  intro l
  induction l with
  | nil =>
      intro n X
      induction n with
      | zero => rfl
      | succ m ihm => simpa [arrSet] using ihm
  | cons x rest ih =>
      intro n X
      cases n with
      | zero => simp [arrSet]
      | succ m => simpa [arrSet] using ih m X

theorem renderSteps_key_data (k : String) (rest : List Step) :
    (renderSteps (.key k :: rest)).data
      = '.' :: (k.data ++ (renderSteps rest).data) := by
  rw [renderSteps, renderStep, String.data_append, String.data_append]
  rfl

theorem renderSteps_idx_data (i : Nat) (rest : List Step) :
    (renderSteps (.idx i :: rest)).data
      = '[' :: (natReprChars i ++ ']' :: (renderSteps rest).data) := by
  rw [renderSteps, renderStep, String.data_append, String.data_append,
    String.data_append]
  simp [natRepr, List.append_assoc]

theorem scanCost_le (st : List Step) :
    scanCost st ≤ (renderSteps st).data.length := by
  induction st with
  | nil => simp [scanCost, renderSteps]
  | cons s rest ih =>
      cases s with
      | key k =>
          rw [renderSteps_key_data]
          simp only [scanCost, List.length_cons, List.length_append]
          omega
      | idx i =>
          rw [renderSteps_idx_data]
          simp only [scanCost, List.length_cons, List.length_append]
          omega

theorem cleanKey_chars {k : String} (hck : cleanKey k = true) :
    k.data ≠ [] ∧ ∀ c ∈ k.data, c ≠ '.' ∧ c ≠ '[' := by
  rw [cleanKey, Bool.and_eq_true] at hck
  constructor
  · intro hnil
    have h1 := hck.1
    rw [hnil] at h1
    simp at h1
  · intro c hcm
    have h2 := List.all_eq_true.mp hck.2 c hcm
    simp only [Bool.and_eq_true, decide_eq_true_eq] at h2
    exact h2

/-- The split scanner on the rendered tail of a clean step list: the
nonempty tokens are exactly the rendered segments, after whatever the
current accumulator yields. -/
theorem scanAux_render :
    ∀ (st : List Step), (∀ stp ∈ st, stepClean stp = true) →
      ∀ (extra : Nat) (acc : List Char),
        (scanAux (scanCost st + extra) (renderSteps st).data acc).filter
            (fun t => !t.isEmpty)
          = ([acc.reverse].filter (fun t => !t.isEmpty))
              ++ st.map (fun s => (segOfStep s).data) := by
  intro st
  induction st with
  | nil =>
      intro _ extra acc
      have hdat : (renderSteps []).data = [] := rfl
      rw [hdat, scanAux_nil]
      simp
  | cons s rest ih =>
      intro h extra acc
      have hrest : ∀ stp ∈ rest, stepClean stp = true :=
        fun x hx => h x (List.mem_cons_of_mem s hx)
      cases s with
      | key k =>
          obtain ⟨hne, hchars⟩ := cleanKey_chars (h _ (List.mem_cons_self _ _))
          have hfuel : scanCost (Step.key k :: rest) + extra
              = (k.data.length + (scanCost rest + extra)) + 1 := by
            simp only [scanCost]
            omega
          rw [renderSteps_key_data, hfuel, scanAux_succ_dot,
            scanAux_chew k.data hchars (scanCost rest + extra) _ [],
            List.append_nil, List.filter_cons, ih hrest extra k.data.reverse]
          have hkd : k.data.isEmpty = false := by
            cases hkk : k.data with
            | nil => exact absurd hkk hne
            | cons a l => rfl
          by_cases hb : (!acc.reverse.isEmpty) = true <;>
            simp [List.filter_cons, hb, hkd, segOfStep]
      | idx i =>
          have hfuel : scanCost (Step.idx i :: rest) + extra
              = (scanCost rest + extra) + 1 := by
            simp only [scanCost]
            omega
          rw [renderSteps_idx_data, hfuel,
            scanAux_succ_bracket _ _ _ _ (natReprChars_ne_nil i)
              (natReprChars_digits i),
            List.filter_cons, List.filter_cons, ih hrest extra []]
          have hnr : (natReprChars i).isEmpty = false := by
            cases hkk : natReprChars i with
            | nil => exact absurd hkk (natReprChars_ne_nil i)
            | cons a l => rfl
          by_cases hb : (!acc.reverse.isEmpty) = true <;>
            simp [List.filter_cons, hb, hnr, segOfStep, natRepr]

/-- Rendered clean step lists survive the path parser: parsing
`"root" ++ renderSteps st` recovers the segments of `st`. -/
theorem parsePath_render :
    ∀ (st : List Step), (∀ stp ∈ st, stepClean stp = true) →
      parsePath ("root" ++ renderSteps st) = st.map segOfStep := by
  intro st h
  cases st with
  | nil => rfl
  | cons s rest =>
      have hrest : ∀ stp ∈ rest, stepClean stp = true :=
        fun x hx => h x (List.mem_cons_of_mem s hx)
      cases s with
      | key k =>
          obtain ⟨hne, hchars⟩ := cleanKey_chars (h _ (List.mem_cons_self _ _))
          have hdata : ("root" ++ renderSteps (Step.key k :: rest)).data
              = 'r' :: 'o' :: 'o' :: 't' :: '.'
                  :: (k.data ++ (renderSteps rest).data) := by
            rw [String.data_append, renderSteps_key_data]
            rfl
          have hstrip :
              stripRoot ('r' :: 'o' :: 'o' :: 't' :: '.'
                  :: (k.data ++ (renderSteps rest).data))
                = k.data ++ (renderSteps rest).data := rfl
          rw [parsePath, hdata, hstrip]
          have hmono := scanCost_le rest
          have hfl : (k.data ++ (renderSteps rest).data).length
              = k.data.length
                  + (scanCost rest
                      + ((renderSteps rest).data.length - scanCost rest)) := by
            simp only [List.length_append]
            omega
          rw [hfl, scanAux_chew k.data hchars _ _ [], List.append_nil,
            scanAux_render rest hrest _ k.data.reverse, List.reverse_reverse]
          have hkd : k.data.isEmpty = false := by
            cases hkk : k.data with
            | nil => exact absurd hkk hne
            | cons a l => rfl
          simp only [List.filter_cons, List.filter_nil, hkd, Bool.not_false,
            eq_self_iff_true, if_true, List.singleton_append, List.map_cons,
            List.map_map]
          rfl
      | idx i =>
          have hdata : ("root" ++ renderSteps (Step.idx i :: rest)).data
              = 'r' :: 'o' :: 'o' :: 't'
                  :: ('[' :: (natReprChars i ++ ']' :: (renderSteps rest).data)) := by
            rw [String.data_append, renderSteps_idx_data]
            rfl
          have hstrip :
              stripRoot ('r' :: 'o' :: 'o' :: 't'
                  :: ('[' :: (natReprChars i ++ ']' :: (renderSteps rest).data)))
                = '[' :: (natReprChars i ++ ']' :: (renderSteps rest).data) := by
            rw [stripRoot]
            intro r hr
            injection hr with h1 _
            exact absurd h1 (by decide)
          rw [parsePath, hdata, hstrip, ← renderSteps_idx_data]
          have hmono := scanCost_le (Step.idx i :: rest)
          have hfl : (renderSteps (Step.idx i :: rest)).data.length
              = scanCost (Step.idx i :: rest)
                  + ((renderSteps (Step.idx i :: rest)).data.length
                      - scanCost (Step.idx i :: rest)) := by
            omega
          rw [hfl, scanAux_render _ h _ [], List.map_append, List.map_map]
          rfl

/-- A structural address that resolves also resolves through the
string-segment reader, to the same value. -/
theorem getSegsVal_of_getSteps :
    ∀ (st : List Step) (m w : JNode), getSteps m st = some w →
      getSegsVal m (st.map segOfStep) = some w := by
  intro st
  induction st with
  | nil =>
      intro m w h
      rw [getSteps_nil] at h
      rw [List.map_nil]
      cases m <;> exact h
  | cons s rest ih =>
      intro m w h
      cases s with
      | key k =>
          cases m with
          | obj es =>
              rw [getSteps_obj_key] at h
              rw [List.map_cons]
              cases hl : lookupKey k es with
              | none => rw [hl] at h; simp at h
              | some c =>
                  rw [hl] at h
                  show (match lookupKey (segOfStep (Step.key k)) es with
                    | some c => getSegsVal c (rest.map segOfStep)
                    | none => none) = some w
                  rw [segOfStep, hl]
                  exact ih c w h
          | arr l => rw [getSteps_arr_key] at h; simp at h
          | null => simp [getSteps] at h
          | undef => simp [getSteps] at h
          | bool b => simp [getSteps] at h
          | num n => simp [getSteps] at h
          | str s => simp [getSteps] at h
      | idx i =>
          cases m with
          | arr l =>
              rw [getSteps_arr_idx] at h
              rw [List.map_cons]
              cases hl : l[i]? with
              | none => rw [hl] at h; simp at h
              | some c =>
                  rw [hl] at h
                  show (if isNumericSeg (segOfStep (Step.idx i)) then
                      match l[segToNat (segOfStep (Step.idx i))]? with
                      | some c => getSegsVal c (rest.map segOfStep)
                      | none => none
                    else none) = some w
                  rw [segOfStep, if_pos (isNumericSeg_natRepr i),
                    segToNat_natRepr, hl]
                  exact ih c w h
          | obj es => rw [getSteps_obj_idx] at h; simp at h
          | null => simp [getSteps] at h
          | undef => simp [getSteps] at h
          | bool b => simp [getSteps] at h
          | num n => simp [getSteps] at h
          | str s => simp [getSteps] at h

/-- The write of `setValueAtPath` along a nonempty segment list reads back
through the same segments, provided only that the entry container accepts
the first segment: below the first level the loop repairs every mismatch
with a fresh `[]`/`{}` of the right kind. -/
theorem setSegs_roundtrip :
    ∀ (segs : List String) (t X : JNode), segs ≠ [] → segMatch t segs.head! →
      getSegsVal (setSegs t segs X) segs = some X := by
  intro segs
  induction segs with
  | nil => intro t X hne _; exact absurd rfl hne
  | cons seg rest ih =>
      intro t X _ hm
      cases rest with
      | nil =>
          cases t with
          | obj es =>
              show getSegsVal (.obj (setKey seg X es)) [seg] = some X
              simp [getSegsVal, lookupKey_setKey_self]
          | arr l =>
              have hnum : isNumericSeg seg = true := hm
              show getSegsVal (setChild (.arr l) seg X) [seg] = some X
              rw [setChild, if_pos hnum]
              simp [getSegsVal, hnum, arrSet_get_self]
          | null => exact absurd hm id
          | undef => exact absurd hm id
          | bool b => exact absurd hm id
          | num n => exact absurd hm id
          | str s => exact absurd hm id
      | cons next rest' =>
          have hm' : segMatch
              (correctChild (childAt t seg) (isNumericSeg next)) next := by
            by_cases hn : isNumericSeg next = true
            · rw [hn]
              cases childAt t seg <;> simp [correctChild, segMatch, hn]
            · rw [Bool.not_eq_true] at hn
              rw [hn]
              cases childAt t seg <;> simp [correctChild, segMatch]
          have hrec := ih (correctChild (childAt t seg) (isNumericSeg next)) X
            (by simp) hm'
          cases t with
          | obj es =>
              show getSegsVal
                (.obj (setKey seg
                  (setSegs (correctChild (childAt (.obj es) seg)
                    (isNumericSeg next)) (next :: rest') X) es))
                (seg :: next :: rest') = some X
              show (match lookupKey seg (setKey seg _ es) with
                | some c => getSegsVal c (next :: rest')
                | none => none) = some X
              rw [lookupKey_setKey_self]
              exact hrec
          | arr l =>
              have hnum : isNumericSeg seg = true := hm
              show getSegsVal
                (setChild (.arr l) seg
                  (setSegs (correctChild (childAt (.arr l) seg)
                    (isNumericSeg next)) (next :: rest') X))
                (seg :: next :: rest') = some X
              rw [setChild, if_pos hnum]
              show (if isNumericSeg seg then
                  match (arrSet l (segToNat seg) _)[segToNat seg]? with
                  | some c => getSegsVal c (next :: rest')
                  | none => none
                else none) = some X
              rw [if_pos hnum, arrSet_get_self]
              exact hrec
          | null => exact absurd hm id
          | undef => exact absurd hm id
          | bool b => exact absurd hm id
          | num n => exact absurd hm id
          | str s => exact absurd hm id

theorem setValueAtPath_eq (o : JNode) (p : String) (v : JNode) :
    setValueAtPath o p v
      = match parsePath p with
        | [] =>
            match o with
            | .obj es => .obj (setKey "undefined" v es)
            | other => other
        | seg :: rest => setSegs o (seg :: rest) v := rfl

/-- C4 counterexample: a source key containing a dot yields the record
path `"root.a.b"`, which the path grammar splits into segments `a`, `b`;
the merged object holds the single key `"a.b"`, so the lookup fails
instead of returning the emptied source value. -/
theorem claim_C4_counterexample :
    (syncStructure (.obj [("a.b", .str "hi")]) (.obj []) "root").added
      = [⟨"root.a.b", .str "hi"⟩] ∧
    getValueAtPath
      (syncStructure (.obj [("a.b", .str "hi")]) (.obj []) "root").updatedNode
      "root.a.b" = none := by
  decide

/-- C4 (amended): over source trees all of whose object keys are clean
(nonempty, containing neither `.` nor `[`), every added record's path,
read back in the merged tree with the path grammar of `setValueAtPath`,
yields exactly `createEmptyStructure` of the record's source value. -/
theorem claim_C4 (S T : JNode) (hwf : wf S = true)
    (hcl : cleanNode S = true) :
    ∀ r ∈ (syncStructure S T "root").added,
      getValueAtPath (syncStructure S T "root").updatedNode r.path
        = some (createEmptyStructure r.sourceValue) := by
  intro r hr
  obtain ⟨st, hpath, hget, hclean⟩ := sync_added_located S T "root" hwf r hr
  rw [getValueAtPath, hpath, parsePath_render st (hclean hcl)]
  exact getSegsVal_of_getSteps st _ _ hget

theorem claim_C4_witness :
    wf (JNode.obj [("a", .str "hi")]) = true ∧
    cleanNode (JNode.obj [("a", .str "hi")]) = true ∧
    (⟨"root.a", .str "hi"⟩ : AddedRecord)
      ∈ (syncStructure (.obj [("a", .str "hi")]) (.obj []) "root").added ∧
    getValueAtPath
      (syncStructure (.obj [("a", .str "hi")]) (.obj []) "root").updatedNode
      "root.a" = some (createEmptyStructure (.str "hi")) :=
  ⟨by decide, by decide, by decide,
    claim_C4 (.obj [("a", .str "hi")]) (.obj []) (by decide) (by decide)
      ⟨"root.a", .str "hi"⟩ (by decide)⟩

/-- C7 counterexample: a wholesale structural replacement at the root is
recorded with path `"root"`, which parses to no segments; `setValueAtPath`
then writes the literal key `"undefined"`, so reading `"root"` back
returns the whole root object, not the injected value. -/
theorem claim_C7_counterexample :
    ((syncStructure (.obj [("a", .num 1)]) (.str "oops") "root").added.map
        (fun r => r.path) = ["root"]) ∧
    getValueAtPath
      (setValueAtPath
        (syncStructure (.obj [("a", .num 1)]) (.str "oops") "root").updatedNode
        "root" (.str "hello"))
      "root" ≠ some (.str "hello") := by
  decide

/-- A path whose first rendered step is an array index always parses with
the digits of that index as its first segment, whatever follows: the first
token of the scanner depends only on the characters up to the first
separator. -/
theorem parsePath_idx_head (i : Nat) (st' : List Step) :
    ∃ tl, parsePath ("root" ++ renderSteps (.idx i :: st'))
      = natRepr i :: tl := by
  have hdata : ("root" ++ renderSteps (Step.idx i :: st')).data
      = 'r' :: 'o' :: 'o' :: 't'
          :: ('[' :: (natReprChars i ++ ']' :: (renderSteps st').data)) := by
    rw [String.data_append, renderSteps_idx_data]
    rfl
  have hstrip :
      stripRoot ('r' :: 'o' :: 'o' :: 't'
          :: ('[' :: (natReprChars i ++ ']' :: (renderSteps st').data)))
        = '[' :: (natReprChars i ++ ']' :: (renderSteps st').data) := by
    rw [stripRoot]
    intro r hr
    injection hr with h1 _
    exact absurd h1 (by decide)
  have hlen : ('[' :: (natReprChars i ++ ']' :: (renderSteps st').data)).length
      = ((natReprChars i).length + (renderSteps st').data.length + 1) + 1 := by
    simp only [List.length_cons, List.length_append]
    omega
  refine ⟨((scanAux
      ((natReprChars i).length + (renderSteps st').data.length + 1)
      (renderSteps st').data []).filter (fun t => !t.isEmpty)).map
        (fun l => ⟨l⟩), ?_⟩
  rw [parsePath, hdata, hstrip, hlen,
    scanAux_succ_bracket _ _ _ _ (natReprChars_ne_nil i)
      (natReprChars_digits i)]
  have hnr : (natReprChars i).isEmpty = false := by
    cases hkk : natReprChars i with
    | nil => exact absurd hkk (natReprChars_ne_nil i)
    | cons a l => rfl
  simp [List.filter_cons, hnr, natRepr]

/-- C7 (amended): every added record whose path parses to at least one
segment — that is, every record except a wholesale root replacement,
whose path is exactly `"root"` — round-trips: writing any value `X` at
the record's path in the merged tree and reading the same path back
yields `X`.  No restriction on the source's keys is needed: the write
itself creates every container the read then follows. -/
theorem claim_C7 (S T : JNode) (hwf : wf S = true) :
    ∀ r ∈ (syncStructure S T "root").added, parsePath r.path ≠ [] →
      ∀ X : JNode,
        getValueAtPath
          (setValueAtPath (syncStructure S T "root").updatedNode r.path X)
          r.path = some X := by
  intro r hr hnp X
  obtain ⟨st, hpath, hget, _⟩ := sync_added_located S T "root" hwf r hr
  obtain ⟨seg0, tl, hp⟩ := List.exists_cons_of_ne_nil hnp
  have hm : segMatch (syncStructure S T "root").updatedNode seg0 := by
    cases st with
    | nil =>
        rw [hpath] at hp
        have h0 : parsePath ("root" ++ renderSteps []) = [] := rfl
        rw [h0] at hp
        simp at hp
    | cons s0 st' =>
        cases s0 with
        | key k =>
            cases hM : (syncStructure S T "root").updatedNode with
            | obj es => trivial
            | arr l => rw [hM, getSteps_arr_key] at hget; simp at hget
            | null => rw [hM] at hget; simp [getSteps] at hget
            | undef => rw [hM] at hget; simp [getSteps] at hget
            | bool b => rw [hM] at hget; simp [getSteps] at hget
            | num n => rw [hM] at hget; simp [getSteps] at hget
            | str s => rw [hM] at hget; simp [getSteps] at hget
        | idx i =>
            cases hM : (syncStructure S T "root").updatedNode with
            | arr l =>
                obtain ⟨tl', hp'⟩ := parsePath_idx_head i st'
                rw [hpath, hp'] at hp
                injection hp with h1 _
                show isNumericSeg seg0 = true
                rw [← h1]
                exact isNumericSeg_natRepr i
            | obj es => rw [hM, getSteps_obj_idx] at hget; simp at hget
            | null => rw [hM] at hget; simp [getSteps] at hget
            | undef => rw [hM] at hget; simp [getSteps] at hget
            | bool b => rw [hM] at hget; simp [getSteps] at hget
            | num n => rw [hM] at hget; simp [getSteps] at hget
            | str s => rw [hM] at hget; simp [getSteps] at hget
  rw [getValueAtPath, setValueAtPath_eq, hp]
  exact setSegs_roundtrip (seg0 :: tl) _ X (List.cons_ne_nil _ _) hm

theorem claim_C7_witness :
    wf (JNode.obj [("a.b", .str "hi")]) = true ∧
    (⟨"root.a.b", .str "hi"⟩ : AddedRecord)
      ∈ (syncStructure (.obj [("a.b", .str "hi")]) (.obj []) "root").added ∧
    parsePath "root.a.b" ≠ [] ∧
    getValueAtPath
      (setValueAtPath
        (syncStructure (.obj [("a.b", .str "hi")]) (.obj []) "root").updatedNode
        "root.a.b" (.num 7))
      "root.a.b" = some (.num 7) :=
  ⟨by decide, by decide, by decide,
    claim_C7 (.obj [("a.b", .str "hi")]) (.obj []) (by decide)
      ⟨"root.a.b", .str "hi"⟩ (by decide) (by decide) (.num 7)⟩

end I18nSync
